import Mathlib

/-!
Shallow embedding of the `fake` compiler-driver core (src/fake/src/driver.rs
and src/fake/src/run.rs) and proofs about its planner and emitter.

States, operations and setups are referenced by dense indices (the Rust
`StateRef`/`OpRef`/`SetupRef` handles produced by the entity arena), so the
handle types are `Nat` here.  Rust's `SecondaryMap` with a default value is
modelled by a total function.  Panics (`expect`, out-of-bounds indexing) are
modelled by `Option`/an explicit `panicked` outcome.  User emission callbacks
(`EmitSetup`/`EmitBuild`) are opaque writers to the output sink; they are
modelled by the list of lines they write.
-/

namespace Fake

/-- A State is a type of file that Operations produce or consume
(driver.rs:7-10). -/
structure State where
  name : String
  extensions : List String
deriving DecidableEq

/-- An Operation transforms files from one State to another (driver.rs:18-24).
The `emit` behaviour (`Box<dyn EmitBuild>`) receives the input and output
filename and writes build-script lines. -/
structure Operation where
  name : String
  input : Nat
  output : Nat
  setups : List Nat
  emitB : String → String → List String

/-- A Setup runs at configuration time and produces build-script machinery
(driver.rs:32-35); its `emit` behaviour writes lines. -/
structure Setup where
  name : String
  emitS : List String

/-- A Driver encapsulates States and the Operations that transform between
them (driver.rs:107-113). -/
structure Driver where
  setups : List Setup
  states : List State
  ops : List Operation
  stdinOp : Nat
  stdoutOp : Nat

/-- Placeholder operation used to totalize handle lookups; the Rust arena
guarantees every issued `OpRef` is in bounds, so well-formedness hypotheses
make the placeholder unreachable. -/
def defaultOp : Operation := ⟨"", 0, 0, [], fun _ _ => []⟩

def opAt (drv : Driver) (i : Nat) : Operation := drv.ops.getD i defaultOp

def stateAt (drv : Driver) (i : Nat) : State := drv.states.getD i ⟨"", []⟩

def setupAt (drv : Driver) (i : Nat) : Setup := drv.setups.getD i ⟨"", []⟩

/-- Handle validity for operations: every operation's input and output state
handle resolves.  The Rust type system enforces this by construction (handles
are only issued by the arena that owns the entries). -/
def Driver.Wf (drv : Driver) : Prop :=
  ∀ o ∈ drv.ops, o.input < drv.states.length ∧ o.output < drv.states.length

/-! ## Path model

`camino::Utf8PathBuf` paths are modelled as `String`s with Unix separators.
The component parser, `file_name`, `file_stem`, `extension` and
`with_extension` follow the Rust standard library's documented semantics
(camino delegates to `std::path`). -/

/-- A path component, as produced by `std::path::Components` on Unix. -/
inductive Component where
  | rootDir
  | curDir
  | parentDir
  | normal (s : String)
deriving DecidableEq

/-- Split a character list on a separator character; adjacent separators
produce empty chunks (later filtered, as `std::path` ignores them). -/
def splitOnChar (sep : Char) : List Char → List (List Char)
  | [] => [[]]
  | c :: rest =>
    if c = sep then [] :: splitOnChar sep rest
    else
      match splitOnChar sep rest with
      | [] => [[c]]
      | g :: gs => (c :: g) :: gs

def startsWithSlash (p : String) : Bool :=
  match p.data with
  | '/' :: _ => true
  | _ => false

/-- Whether `Components` keeps a leading `.` component: only when the path is
relative and literally begins with a `.` component. -/
def keepsCurDir (p : String) : Bool :=
  match p.data with
  | ['.'] => true
  | '.' :: '/' :: _ => true
  | _ => false

def chunkToComp (s : String) : Option Component :=
  if s = "." then none
  else if s = ".." then some Component.parentDir
  else some (Component.normal s)

def pathChunks (p : String) : List String :=
  ((splitOnChar '/' p.data).map (fun l => String.mk l)).filter (fun s => s ≠ "")

/-- Parse a path into its normalized components, Unix rules: a leading `/`
yields `rootDir`; empty chunks are dropped; `.` chunks are dropped except as
the leading component of a relative path. -/
def parseComponents (p : String) : List Component :=
  let root : List Component := if startsWithSlash p then [Component.rootDir] else []
  let rest : List Component :=
    match pathChunks p with
    | [] => []
    | c :: cs =>
      (if c = "." ∧ keepsCurDir p then [Component.curDir] else (chunkToComp c).toList)
        ++ cs.filterMap chunkToComp
  root ++ rest

def compToString : Component → String
  | Component.rootDir => "/"
  | Component.curDir => "."
  | Component.parentDir => ".."
  | Component.normal s => s

def joinSlash : List String → String
  | [] => ""
  | [x] => x
  | x :: xs => x ++ "/" ++ joinSlash xs

/-- Collect components back into a path, as `PathBuf::from_iter` does. -/
def joinComponents (cs : List Component) : String :=
  match cs with
  | Component.rootDir :: rest => "/" ++ joinSlash (rest.map compToString)
  | _ => joinSlash (cs.map compToString)

/-- The final component of the path, if it is a normal component
(`Path::file_name`). -/
def fileName (p : String) : Option String :=
  match (parseComponents p).getLast? with
  | some (Component.normal s) => some s
  | _ => none

/-- Split a character list at its last `.`, the dot excluded. -/
def lastDotSplit : List Char → Option (List Char × List Char)
  | [] => none
  | c :: cs =>
    match lastDotSplit cs with
    | some (b, a) => some (c :: b, a)
    | none => if c = '.' then some ([], cs) else none

/-- Rust's `rsplit_file_at_dot`: split a file name into the part before and
after its last dot; a name that is `..` or whose only dot is leading has no
extension. -/
def rsplitFileAtDot (file : String) : Option String × Option String :=
  if file = ".." then (some file, none)
  else
    match lastDotSplit file.data with
    | none => (none, some file)
    | some (b, a) =>
      if b = [] then (some file, none) else (some (String.mk b), some (String.mk a))

/-- The stem of a bare file name (`before.or(after)` in Rust). -/
def fileStemOfName (file : String) : Option String :=
  ((rsplitFileAtDot file).1).or (rsplitFileAtDot file).2

/-- The extension of a bare file name (`before.and(after)` in Rust). -/
def extOfName (file : String) : Option String :=
  match rsplitFileAtDot file with
  | (some _, a) => a
  | (none, _) => none

/-- `Path::file_stem`. -/
def fileStemPath (p : String) : Option String :=
  (fileName p).bind fileStemOfName

/-- `Path::extension`. -/
def extensionPath (p : String) : Option String :=
  (fileName p).bind extOfName

/-- Rust `Utf8PathBuf::from(f).with_extension(ext)` for a path `f` free of
separators, the only form `gen_name` (driver.rs:200-204) uses: its stems come
from `file_stem`, which never contains a separator.  When `f` has no file
name (empty, `.`, `..`) `set_extension` is a no-op; otherwise the file stem
of `f` replaces it and `.ext` is appended when `ext` is nonempty. -/
def withExtension (f ext : String) : String :=
  match fileName f with
  | none => f
  | some name =>
    match fileStemOfName name with
    | none => f
    | some base => if ext = "" then base else base ++ "." ++ ext

/-- The component-walking loop of `pathdiff::diff_utf8_paths`, which
`relative_path` (driver.rs:90-97) delegates to. -/
def diffGo : List Component → List Component → List Component → Option (List Component)
  | [], [], comps => some comps
  | a :: as_, [], comps => some (comps ++ a :: as_)
  | [], _ :: bs, comps => diffGo [] bs (comps ++ [Component.parentDir])
  | a :: as_, b :: bs, comps =>
    if comps = [] ∧ a = b then diffGo as_ bs comps
    else
      match b with
      | Component.curDir => diffGo as_ bs (comps ++ [a])
      | Component.parentDir => none
      | _ => some (comps ++ [Component.parentDir] ++ bs.map (fun _ => Component.parentDir) ++ a :: as_)

/-- `pathdiff::diff_utf8_paths(path, base)`. -/
def diffPaths (path base : String) : Option String :=
  if startsWithSlash path ≠ startsWithSlash base then
    if startsWithSlash path then some path else none
  else
    (diffGo (parseComponents path) (parseComponents base) []).map joinComponents

/-- `relative_path` (driver.rs:90-97).  The `None` fallback canonicalizes the
path through the filesystem, which a shallow embedding cannot consult; it is
modelled as returning `path` itself (an absolute name for the same file).
The claims never exercise the fallback. -/
def relativePath (path base : String) : String :=
  match diffPaths path base with
  | some p => p
  | none => path

/-! ## Planner

`Driver::find_path_segment` (driver.rs:118-172) is a breadth-first search
over the state graph with a `visited` secondary map, a `breadcrumbs`
secondary map and a FIFO vector, followed by a backward walk over the
breadcrumbs.  The Rust `while` loop is embedded with explicit fuel; lemma
`bfsLoop_post` shows the fuel `states.length + 1` used by `runBfs` never
runs out, so the embedding computes exactly the loop's fixpoint.  The
backward walk likewise gets fuel; on breadcrumbs produced by the search the
walk strictly decreases a distance measure, so its fuel never runs out
either (exhaustion stands in for the divergence the Rust loop would exhibit
on cyclic breadcrumbs, which the search never produces). -/

/-- Search destination (driver.rs:100-103): a state or the final operation
of the chain. -/
inductive Dest where
  | state (s : Nat)
  | op (o : Nat)
deriving DecidableEq

/-- The mutable search state: `visited` and `breadcrumbs` secondary maps
(default `false`/`none`) and the FIFO state queue. -/
structure Search where
  visited : Nat → Bool
  crumbs : Nat → Option Nat
  queue : List Nat

/-- Mark `o.output` visited, record the breadcrumb `i`, and enqueue it
(driver.rs:138-141). -/
def pushStep (i : Nat) (o : Operation) (st : Search) : Search :=
  { visited := fun v => if v = o.output then true else st.visited v
    crumbs := fun v => if v = o.output then some i else st.crumbs v
    queue := st.queue ++ [o.output] }

/-- The inner edge loop (driver.rs:137-148): traverse each operation edge
out of `cur`, and break out of the loop after handling the goal edge. -/
def relax (dest : Dest) (cur : Nat) : List (Nat × Operation) → Search → Search
  | [], st => st
  | (i, o) :: rest, st =>
    let st' := if o.input = cur ∧ st.visited o.output = false then pushStep i o st else st
    if dest = Dest.op i then st' else relax dest cur rest st'

/-- The outer worklist loop (driver.rs:127-149): dequeue the front state,
break when it is the goal state, otherwise relax its outgoing edges. -/
def bfsLoop (drv : Driver) (dest : Dest) : Nat → Search → Search
  | 0, st => st
  | fuel + 1, st =>
    match st.queue with
    | [] => st
    | cur :: rest =>
      if dest = Dest.state cur then { st with queue := rest }
      else bfsLoop drv dest fuel (relax dest cur drv.ops.enum { st with queue := rest })

/-- The initial search state (driver.rs:119-127): the start state is visited
and queued. -/
def initSearch (start : Nat) : Search :=
  { visited := fun v => decide (v = start), crumbs := fun _ => none, queue := [start] }

def runBfs (drv : Driver) (start : Nat) (dest : Dest) : Search :=
  bfsLoop drv dest (drv.states.length + 1) (initSearch start)

/-- The backward breadcrumb walk (driver.rs:160-168), accumulating operation
refs in front of `acc` (the Rust code pushes to the back and reverses at the
end, which builds the same list). -/
def backtrack (drv : Driver) (crumbs : Nat → Option Nat) (start : Nat) :
    Nat → Nat → List Nat → Option (List Nat)
  | 0, _, _ => none
  | fuel + 1, cur, acc =>
    if cur = start then some acc
    else
      match crumbs cur with
      | some i => backtrack drv crumbs start fuel ((opAt drv i).input) (i :: acc)
      | none => none

/-- Initial accumulator and walk origin (driver.rs:152-159): for an
operation destination the goal edge is pushed first and the walk starts at
its input state. -/
def segInit (drv : Driver) (dest : Dest) : List Nat × Nat :=
  match dest with
  | Dest.state s => ([], s)
  | Dest.op i => ([i], (opAt drv i).input)

/-- `Driver::find_path_segment` (driver.rs:118-172). -/
def findPathSegment (drv : Driver) (start : Nat) (dest : Dest) : Option (List Nat) :=
  let st := runBfs drv start dest
  backtrack drv st.crumbs start (drv.states.length + 1) (segInit drv dest).2 (segInit drv dest).1

/-- `Driver::find_path` (driver.rs:176-197): a segment to each waypoint
operation in order, then a final segment to the end state.  The Rust loop
appends segments left to right; the recursion builds the same list. -/
def findPath (drv : Driver) (start endState : Nat) : List Nat → Option (List Nat)
  | [] => findPathSegment drv start (Dest.state endState)
  | w :: rest =>
    match findPathSegment drv start (Dest.op w) with
    | none => none
    | some seg => (findPath drv ((opAt drv w).output) endState rest).map (fun p => seg ++ p)

/-! ## Plan construction -/

/-- A request to the Driver (driver.rs:388-406). -/
structure Request where
  startState : Nat
  endState : Nat
  startFile : Option String
  endFile : Option String
  through : List Nat
  workdir : String

/-- A plan (driver.rs:409-418). -/
structure Plan where
  start : String
  steps : List (Nat × String)
  workdir : String
deriving DecidableEq

/-- Outcome of `Driver::plan`: `noPath` is the `None` return; `panicked`
models the `expect`/index panics the function can hit. -/
inductive Outcome where
  | ok (p : Plan)
  | noPath
  | panicked
deriving DecidableEq

/-- `Driver::gen_name` (driver.rs:200-204): the primary (first) extension of
the state, applied to the stem with `with_extension`.  `none` models the
index panic on a state with an empty extension list. -/
def genName (drv : Driver) (stem : String) (state : Nat) : Option String :=
  match (stateAt drv state).extensions.head? with
  | some ext => some (withExtension stem ext)
  | none => none

/-- The start filename and optional synthetic stdin step
(driver.rs:213-221).  `none` models the panics: `path[0]` on an empty path,
and `gen_name` on an extension-less state. -/
def planStart (drv : Driver) (req : Request) (path : List Nat) :
    Option (String × List (Nat × String)) :=
  match req.startFile with
  | some p => some (relativePath p req.workdir, [])
  | none =>
    match path.head? with
    | none => none
    | some op0 =>
      match genName drv "stdin" ((opAt drv op0).input) with
      | none => none
      | some filename => some (filename, [(drv.stdinOp, filename)])

/-- Generate the per-step filenames (driver.rs:225-228); `none` propagates a
`gen_name` panic. -/
def genSteps (drv : Driver) (stem : String) : List Nat → Option (List (Nat × String))
  | [] => some []
  | op :: rest =>
    match genName drv stem ((opAt drv op).output) with
    | none => none
    | some filename => (genSteps drv stem rest).map (fun l => (op, filename) :: l)

/-- Replace the filename of the last step (`steps.last_mut()`,
driver.rs:233-234). -/
def setLast (l : List (Nat × String)) (f : String) : List (Nat × String) :=
  match l with
  | [] => []
  | [x] => [(x.1, f)]
  | x :: xs => x :: setLast xs f

/-- The end of `Driver::plan` (driver.rs:230-246): override the last step's
filename with the relativized end file, or append the stdout pseudo-step.
`panicked` models `steps.last_mut().expect("no steps")` on an empty step
list. -/
def planFinish (drv : Driver) (req : Request) (startFile : String)
    (steps1 : List (Nat × String)) : Outcome :=
  match req.endFile with
  | some endFile =>
    match steps1 with
    | [] => Outcome.panicked
    | _ :: _ => Outcome.ok ⟨startFile, setLast steps1 (relativePath endFile req.workdir), req.workdir⟩
  | none => Outcome.ok ⟨startFile, steps1 ++ [(drv.stdoutOp, "_stdout")], req.workdir⟩

/-- `Driver::plan` (driver.rs:206-247). -/
def plan (drv : Driver) (req : Request) : Outcome :=
  match findPath drv req.startState req.endState req.through with
  | none => Outcome.noPath
  | some path =>
    match planStart drv req path with
    | none => Outcome.panicked
    | some (startFile, steps0) =>
      match fileStemPath startFile with
      | none => Outcome.panicked
      | some stem =>
        match genSteps drv stem path with
        | none => Outcome.panicked
        | some gsteps => planFinish drv req startFile (steps0 ++ gsteps)

/-- `State::ext_matches` (driver.rs:44-46). -/
def extMatches (st : State) (ext : String) : Bool :=
  st.extensions.any (fun e => e == ext)

/-- The enumerated first-match search of `Driver::guess_state`
(driver.rs:251-254). -/
def findState (ext : String) : List (Nat × State) → Option Nat
  | [] => none
  | (i, st) :: rest => if extMatches st ext then some i else findState ext rest

/-- `Driver::guess_state` (driver.rs:249-255): the extension of the path
(`?` on `None`), then the first registered state whose extension list
matches. -/
def guessState (drv : Driver) (path : String) : Option Nat :=
  match extensionPath path with
  | none => none
  | some ext => findState ext drv.states.enum

/-! ## Emitter (`Run::emit`, run.rs:134-166)

The output is modelled as the list of lines written to the sink. -/

/-- One setup stanza (run.rs:143-146): the `# name` header, the setup
callback's lines, then a blank line. -/
def setupStanza (drv : Driver) (r : Nat) : List String :=
  ("# " ++ (setupAt drv r).name) :: (setupAt drv r).emitS ++ [""]

/-- The flattened sequence of setup references visited by the nested loops
of run.rs:140-141 (outer over plan steps, inner over the operation's
setups). -/
def planSetupRefs (drv : Driver) (steps : List (Nat × String)) : List Nat :=
  (steps.map (fun s => (opAt drv s.1).setups)).flatten

/-- The de-duplicating setup emission loop (run.rs:139-149); `done` models
the `done_setups` hash set. -/
def emitSetupsLoop (drv : Driver) : List Nat → List Nat → List String
  | [], _ => []
  | r :: rest, done =>
    if r ∈ done then emitSetupsLoop drv rest done
    else setupStanza drv r ++ emitSetupsLoop drv rest (r :: done)

/-- Which setup references actually get a stanza, in order. -/
def stanzaRefs : List Nat → List Nat → List Nat
  | [], _ => []
  | r :: rest, done =>
    if r ∈ done then stanzaRefs rest done
    else r :: stanzaRefs rest (r :: done)

/-- The build-command loop (run.rs:153-159): each step's operation is
invoked with the previous output as input; `last` threads through. -/
def buildSection (drv : Driver) (last : String) : List (Nat × String) → List String
  | [] => []
  | (op, out) :: rest => (opAt drv op).emitB last out ++ buildSection drv out rest

/-- The value of `last_file` after the build loop (run.rs:153-158). -/
def lastFile (start : String) (steps : List (Nat × String)) : String :=
  steps.foldl (fun _ s => s.2) start

/-- `Run::emit` (run.rs:134-166): de-duplicated setup stanzas, the
`# build targets` comment, the build commands, a blank line, and the
`default` line naming the last output. -/
def emit (drv : Driver) (p : Plan) : List String :=
  emitSetupsLoop drv (planSetupRefs drv p.steps) []
    ++ ["# build targets"]
    ++ buildSection drv p.start p.steps
    ++ [""]
    ++ ["default " ++ lastFile p.start p.steps]

/-! ## Run facade (`Run::emit_and_run`, run.rs:108-132)

The filesystem and process interactions are modelled by their outcome
flags: whether the scratch directory pre-existed, whether writing
`build.ninja` succeeded, whether the executor could be spawned, and the
executor's exit status.  `cmd.status()?` in the Rust code propagates only
spawn errors: the returned `ExitStatus` value is dropped, so `exitZero`
appears below as a field the function never reads. -/

structure ExecEnv where
  keepBuildDir : Bool
  dirExisted : Bool
  emitOk : Bool
  spawnOk : Bool
  exitZero : Bool
deriving DecidableEq

inductive ExecResult where
  | success
  | ioError
deriving DecidableEq

structure ExecEffects where
  result : ExecResult
  dirRemoved : Bool
deriving DecidableEq

/-- `Run::emit_and_run` (run.rs:108-132): emit the script (IO failures
propagate), run the executor (`?` propagates spawn failures only), then
remove the scratch directory unless it pre-existed or `keep_build_dir` is
set. -/
def emitAndRun (env : ExecEnv) : ExecEffects :=
  if env.emitOk = false then ⟨ExecResult.ioError, false⟩
  else if env.spawnOk = false then ⟨ExecResult.ioError, false⟩
  else if env.keepBuildDir = false ∧ env.dirExisted = false then ⟨ExecResult.success, true⟩
  else ⟨ExecResult.success, false⟩

/-! ## Specification vocabulary

Operation chains in the catalog's state graph, and the edge sets each kind
of search destination actually explores.  The inner loop of
`find_path_segment` breaks out of the edge iteration as soon as it passes
the goal edge, so a search for `Dest.op w` only ever relaxes operations
registered no later than `w`; a search for a state relaxes every
operation. -/

/-- Operation indices the search for `dest` is allowed to traverse. -/
def okIdx (drv : Driver) (dest : Dest) (i : Nat) : Prop :=
  i < drv.ops.length ∧ match dest with
    | Dest.state _ => True
    | Dest.op w => i ≤ w

/-- A chain of operations (by index, restricted to `P`) leading from state
`s` to state `t`: each operation's input is the previous output. -/
inductive Chain (drv : Driver) (P : Nat → Prop) : Nat → List Nat → Nat → Prop where
  | nil (s : Nat) : Chain drv P s [] s
  | cons {s t : Nat} (i : Nat) {rest : List Nat} (hP : P i)
      (hin : (opAt drv i).input = s)
      (hrest : Chain drv P ((opAt drv i).output) rest t) : Chain drv P s (i :: rest) t

/-- A chain over the full catalog graph. -/
def OpChain (drv : Driver) (s : Nat) (p : List Nat) (t : Nat) : Prop :=
  Chain drv (fun i => i < drv.ops.length) s p t

/-- An operation chain from `s` to `t` that traverses the given waypoint
operations in order (they appear as a subsequence of the chain). -/
def ThroughChain (drv : Driver) (s t : Nat) (through p : List Nat) : Prop :=
  OpChain drv s p t ∧ through.Sublist p

/-- The state the breadcrumb walk for `dest` starts from. -/
def segTarget (drv : Driver) (dest : Dest) : Nat :=
  match dest with
  | Dest.state t => t
  | Dest.op w => (opAt drv w).input

/-- How a segment for `dest` is assembled from the breadcrumb part: for an
operation destination the goal edge is appended. -/
def segWrap (dest : Dest) (σ : List Nat) : List Nat :=
  match dest with
  | Dest.state _ => σ
  | Dest.op w => σ ++ [w]

/-- Segment-wise existence of a route: each waypoint's input state is
reachable from the current state using only operations registered no later
than that waypoint, and the end state is reachable from the last waypoint's
output over the full graph. -/
def SegsExist (drv : Driver) (endState : Nat) : Nat → List Nat → Prop
  | s, [] => ∃ σ, Chain drv (okIdx drv (Dest.state endState)) s σ endState
  | s, w :: rest =>
    (∃ σ, Chain drv (okIdx drv (Dest.op w)) s σ ((opAt drv w).input)) ∧
      SegsExist drv endState ((opAt drv w).output) rest

/-- The shape `find_path` guarantees for its result: a chain segment to each
waypoint's input (shortest among chains over the operations registered no
later than that waypoint), the waypoint itself, and a final shortest segment
to the end state. -/
def PathDecomp (drv : Driver) (endState : Nat) : Nat → List Nat → List Nat → Prop
  | s, [], p =>
    Chain drv (okIdx drv (Dest.state endState)) s p endState ∧
      ∀ q, Chain drv (okIdx drv (Dest.state endState)) s q endState → p.length ≤ q.length
  | s, w :: rest, p => ∃ σ p', p = σ ++ w :: p' ∧
      Chain drv (okIdx drv (Dest.op w)) s σ ((opAt drv w).input) ∧
      (∀ σ', Chain drv (okIdx drv (Dest.op w)) s σ' ((opAt drv w).input) → σ.length ≤ σ'.length) ∧
      PathDecomp drv endState ((opAt drv w).output) rest p'

/-! ## Search invariant -/

/-- Truncate an edge list at the break point: everything up to and including
the goal edge of an operation destination. -/
def uptoBreak (dest : Dest) : List (Nat × Operation) → List (Nat × Operation)
  | [] => []
  | (i, o) :: rest =>
    if dest = Dest.op i then [(i, o)] else (i, o) :: uptoBreak dest rest

/-- The edge loop without its break, over an already-truncated list. -/
def relaxNB (cur : Nat) : List (Nat × Operation) → Search → Search
  | [], st => st
  | (i, o) :: rest, st =>
    relaxNB cur rest (if o.input = cur ∧ st.visited o.output = false then pushStep i o st else st)

/-- The edge list a search for `dest` actually explores. -/
def allowedOps (drv : Driver) (dest : Dest) : List (Nat × Operation) :=
  uptoBreak dest drv.ops.enum

/-- Count of unvisited states; together with the queue length it gives the
termination measure of the worklist loop. -/
def unvis (drv : Driver) (st : Search) : Nat :=
  ((List.range drv.states.length).filter (fun v => !st.visited v)).length

def phi (drv : Driver) (st : Search) : Nat :=
  unvis drv st + st.queue.length

/-- The queue-independent part of the search invariant, with ghost distance
assignment `D`. -/
structure CoreInv (drv : Driver) (dest : Dest) (start : Nat) (st : Search)
    (D : Nat → Nat) : Prop where
  vis_start : st.visited start = true
  d_start : D start = 0
  crumb_sound : ∀ v i, st.crumbs v = some i →
    okIdx drv dest i ∧ (opAt drv i).output = v ∧
      st.visited ((opAt drv i).input) = true ∧ st.visited v = true ∧
      D v = D ((opAt drv i).input) + 1
  vis_crumb : ∀ v, st.visited v = true → v = start ∨ ∃ i, st.crumbs v = some i
  vis_lb : ∀ v, st.visited v = true →
    ∀ p, Chain drv (okIdx drv dest) start p v → D v ≤ p.length
  vis_range : ∀ v, st.visited v = true → v < drv.states.length

/-- The full loop invariant: the core facts plus the queue facts (all queued
states visited; distances along the queue form at most two consecutive
levels; every visited state no longer queued has all its out-edges
relaxed). -/
structure Inv (drv : Driver) (dest : Dest) (start : Nat) (st : Search)
    (D : Nat → Nat) extends CoreInv drv dest start st D : Prop where
  queue_vis : ∀ q ∈ st.queue, st.visited q = true
  queue_shape : ∃ d a b, st.queue.map D = List.replicate a d ++ List.replicate b (d + 1)
  closed : ∀ u, st.visited u = true → u ∉ st.queue →
    ∀ i, okIdx drv dest i → (opAt drv i).input = u →
      st.visited ((opAt drv i).output) = true

/-- What the finished search guarantees about its destination: the target
state was reached, or it is unreachable over the allowed edges. -/
def TargetFact (drv : Driver) (dest : Dest) (start : Nat) (st : Search) : Prop :=
  st.visited (segTarget drv dest) = true ∨
    ∀ p, ¬ Chain drv (okIdx drv dest) start p (segTarget drv dest)

/-- The primary extensions of the output states along a path (with `""` for
a state with no extensions, which would make `gen_name` panic). -/
def extsOf (drv : Driver) (path : List Nat) : List String :=
  path.map (fun op => ((stateAt drv ((opAt drv op).output)).extensions.head?).getD "")

/-- All primary extensions a plan's filenames are built from: when reading
stdin, the primary extension of the first operation's input state, then the
output extensions along the path. -/
def planExtList (drv : Driver) (req : Request) (path : List Nat) : List String :=
  (match req.startFile, path with
   | none, op0 :: _ => ((stateAt drv ((opAt drv op0).input)).extensions.head?).toList
   | _, _ => []) ++ extsOf drv path

/-! ## Concrete catalogs for witnesses and counterexamples

Each driver mirrors what `DriverBuilder::build` produces: the user states
and operations first, then the reserved `null` state and the built-in
`stdin`/`stdout` operations on it. -/

def exEmit : String → String → List String :=
  fun i o => ["build " ++ o ++ ": cp " ++ i]

/-- States A(`a`), B(`b`); one operation `ab : A → B` using setup 0. -/
def abDriver : Driver :=
  { setups := [⟨"S", ["rule cp", "  command = cp"]⟩]
    states := [⟨"A", ["a"]⟩, ⟨"B", ["b"]⟩, ⟨"null", []⟩]
    ops := [⟨"ab", 0, 1, [0], exEmit⟩, ⟨"stdin", 2, 2, [], exEmit⟩, ⟨"show", 2, 2, [], exEmit⟩]
    stdinOp := 1
    stdoutOp := 2 }

/-- The waypoint `loop : S1 → S1` is registered before the only edge
`ab : S0 → S1` that can reach its input state. -/
def loopDriver : Driver :=
  { setups := []
    states := [⟨"S0", ["s"]⟩, ⟨"S1", ["t"]⟩, ⟨"null", []⟩]
    ops := [⟨"loop", 1, 1, [], exEmit⟩, ⟨"ab", 0, 1, [], exEmit⟩,
      ⟨"stdin", 2, 2, [], exEmit⟩, ⟨"show", 2, 2, [], exEmit⟩]
    stdinOp := 2
    stdoutOp := 3 }

/-- States A, B, C with `p : A → B` and `q : B → C`. -/
def twoHopDriver : Driver :=
  { setups := []
    states := [⟨"A", ["a"]⟩, ⟨"B", ["b"]⟩, ⟨"C", ["c"]⟩, ⟨"null", []⟩]
    ops := [⟨"p", 0, 1, [], exEmit⟩, ⟨"q", 1, 2, [], exEmit⟩,
      ⟨"stdin", 3, 3, [], exEmit⟩, ⟨"show", 3, 3, [], exEmit⟩]
    stdinOp := 2
    stdoutOp := 3 }

/-- A state recognized by extension `gz` feeding an operation producing a
state with primary extension `b`. -/
def gzDriver : Driver :=
  { setups := []
    states := [⟨"GZ", ["gz"]⟩, ⟨"B", ["b"]⟩, ⟨"null", []⟩]
    ops := [⟨"unzip", 0, 1, [], exEmit⟩, ⟨"stdin", 2, 2, [], exEmit⟩,
      ⟨"show", 2, 2, [], exEmit⟩]
    stdinOp := 1
    stdoutOp := 2 }

/-- Two chained operations whose output states share the primary extension
`x`. -/
def dupExtDriver : Driver :=
  { setups := []
    states := [⟨"A", ["a"]⟩, ⟨"B", ["x"]⟩, ⟨"C", ["x"]⟩, ⟨"null", []⟩]
    ops := [⟨"ab", 0, 1, [], exEmit⟩, ⟨"bc", 1, 2, [], exEmit⟩,
      ⟨"stdin", 3, 3, [], exEmit⟩, ⟨"show", 3, 3, [], exEmit⟩]
    stdinOp := 2
    stdoutOp := 3 }

/-! # Theorems -/

/-! ## Chain basics -/

theorem chain_nil_eq {drv : Driver} {P : Nat → Prop} {s t : Nat}
    (h : Chain drv P s [] t) : s = t := by
  cases h
  rfl

theorem chain_append {drv : Driver} {P : Nat → Prop} {s u t : Nat}
    {p q : List Nat} (hp : Chain drv P s p u) (hq : Chain drv P u q t) :
    Chain drv P s (p ++ q) t := by
  induction hp with
  | nil => simpa using hq
  | cons i hP hin hrest ih => exact Chain.cons i hP hin (ih hq)

theorem chain_snoc {drv : Driver} {P : Nat → Prop} {s u : Nat} {p : List Nat}
    (hp : Chain drv P s p u) {j : Nat} (hP : P j)
    (hin : (opAt drv j).input = u) :
    Chain drv P s (p ++ [j]) ((opAt drv j).output) :=
  chain_append hp (Chain.cons j hP hin (Chain.nil _))

theorem chain_mono {drv : Driver} {P Q : Nat → Prop} (hPQ : ∀ i, P i → Q i)
    {s t : Nat} {p : List Nat} (h : Chain drv P s p t) : Chain drv Q s p t := by
  induction h with
  | nil => exact Chain.nil _
  | cons i hP hin hrest ih => exact Chain.cons i (hPQ i hP) hin ih

theorem chain_split_last {drv : Driver} {P : Nat → Prop} {s v : Nat}
    {p : List Nat} (h : Chain drv P s p v) :
    (p = [] ∧ v = s) ∨
      ∃ q j, p = q ++ [j] ∧ P j ∧ (opAt drv j).output = v ∧
        Chain drv P s q ((opAt drv j).input) := by
  induction h with
  | nil => exact Or.inl ⟨rfl, rfl⟩
  | cons i hP hin hrest ih =>
    rename_i s' t' rest
    rcases ih with ⟨hq, hv⟩ | ⟨q, j, hq, hPj, hout, hchain⟩
    · subst hq
      refine Or.inr ⟨[], i, by simp, hP, ?_, ?_⟩
      · exact hv.symm
      · rw [hin]
        exact Chain.nil _
    · subst hq
      exact Or.inr ⟨i :: q, j, by simp, hPj, hout, Chain.cons i hP hin hchain⟩

/-! ## The explored edge list -/

theorem uptoBreak_state (t : Nat) :
    ∀ l : List (Nat × Operation), uptoBreak (Dest.state t) l = l := by
  intro l
  induction l with
  | nil => rfl
  | cons x rest ih =>
    obtain ⟨i, o⟩ := x
    simp [uptoBreak, ih]

theorem uptoBreak_op_enumFrom (w : Nat) :
    ∀ (l : List Operation) (k : Nat), k ≤ w →
      uptoBreak (Dest.op w) (List.enumFrom k l) =
        List.enumFrom k (l.take (w + 1 - k)) := by
  intro l
  induction l with
  | nil => intro k _; simp [uptoBreak]
  | cons o rest ih =>
    intro k hk
    show uptoBreak (Dest.op w) ((k, o) :: List.enumFrom (k + 1) rest) = _
    by_cases h : w = k
    · subst h
      simp [uptoBreak, List.take]
    · have hk' : k + 1 ≤ w := Nat.lt_of_le_of_ne hk (fun hc => h hc.symm)
      have hsub : w + 1 - k = (w + 1 - (k + 1)) + 1 := by omega
      rw [hsub]
      simp only [uptoBreak, List.take]
      rw [if_neg (by simp [Fake.Dest.op.injEq]; omega)]
      show _ = (k, o) :: List.enumFrom (k + 1) (rest.take (w + 1 - (k + 1)))
      rw [ih (k + 1) hk']

theorem mem_allowedOps {drv : Driver} {dest : Dest} {i : Nat} {o : Operation} :
    (i, o) ∈ allowedOps drv dest ↔ okIdx drv dest i ∧ drv.ops.get? i = some o := by
  cases dest with
  | state t =>
    rw [allowedOps, uptoBreak_state]
    rw [show drv.ops.enum = List.enum drv.ops from rfl, List.mk_mem_enum_iff_get?]
    constructor
    · intro h
      exact ⟨⟨(List.get?_eq_some.mp h).1, trivial⟩, h⟩
    · intro h
      exact h.2
  | op w =>
    rw [allowedOps, show drv.ops.enum = List.enumFrom 0 drv.ops from rfl,
      uptoBreak_op_enumFrom w drv.ops 0 (Nat.zero_le w)]
    rw [show List.enumFrom 0 (drv.ops.take (w + 1 - 0)) =
      List.enum (drv.ops.take (w + 1)) by rfl, List.mk_mem_enum_iff_get?]
    constructor
    · intro h
      have hlen := (List.get?_eq_some.mp h).1
      rw [List.length_take] at hlen
      have hi : i < w + 1 := lt_of_lt_of_le hlen (min_le_left _ _)
      rw [List.get?_take hi] at h
      exact ⟨⟨(List.get?_eq_some.mp h).1, by omega⟩, h⟩
    · rintro ⟨⟨hlen, hle⟩, h⟩
      rw [List.get?_take (by omega : i < w + 1)]
      exact h

theorem allowedOps_output_lt {drv : Driver} (hwf : drv.Wf) {dest : Dest}
    {i : Nat} {o : Operation} (h : (i, o) ∈ allowedOps drv dest) :
    o.output < drv.states.length := by
  have h' := (mem_allowedOps.mp h).2
  exact (hwf o (List.get?_mem h')).2

theorem allowedOps_opAt {drv : Driver} {dest : Dest} {i : Nat} {o : Operation}
    (h : (i, o) ∈ allowedOps drv dest) : opAt drv i = o := by
  have h' := (mem_allowedOps.mp h).2
  rw [opAt, List.getD_eq_getElem?_getD, ← List.get?_eq_getElem?, h']
  rfl

theorem allowedOps_complete {drv : Driver} {dest : Dest} {i : Nat}
    (h : okIdx drv dest i) : (i, opAt drv i) ∈ allowedOps drv dest := by
  have hget : drv.ops.get? i = some (opAt drv i) := by
    rw [opAt, List.getD_eq_getElem?_getD, ← List.get?_eq_getElem?]
    cases hc : drv.ops.get? i with
    | none => exact absurd ((List.get?_eq_none).mp hc) (Nat.not_le.mpr h.1)
    | some o => rfl
  exact mem_allowedOps.mpr ⟨h, hget⟩

theorem relax_eq_relaxNB (dest : Dest) (cur : Nat) :
    ∀ (l : List (Nat × Operation)) (st : Search),
      relax dest cur l st = relaxNB cur (uptoBreak dest l) st := by
  intro l
  induction l with
  | nil => intro st; rfl
  | cons x rest ih =>
    intro st
    obtain ⟨i, o⟩ := x
    by_cases h : dest = Dest.op i
    · simp [relax, uptoBreak, relaxNB, h]
    · simp [relax, uptoBreak, relaxNB, h, ih]

/-! ## Effects of one relaxation pass -/

theorem pushStep_visited {i : Nat} {o : Operation} {st : Search} {v : Nat} :
    (pushStep i o st).visited v = true ↔ v = o.output ∨ st.visited v = true := by
  by_cases h : v = o.output <;> simp [pushStep, h]

theorem pushStep_crumbs_ne {i : Nat} {o : Operation} {st : Search} {v : Nat}
    (h : v ≠ o.output) : (pushStep i o st).crumbs v = st.crumbs v := by
  simp [pushStep, h]

theorem relaxNB_visited_mono (cur : Nat) :
    ∀ (E : List (Nat × Operation)) (st : Search) (v : Nat),
      st.visited v = true → (relaxNB cur E st).visited v = true := by
  intro E
  induction E with
  | nil => intro st v h; exact h
  | cons x rest ih =>
    intro st v h
    obtain ⟨i, o⟩ := x
    show (relaxNB cur rest _).visited v = true
    by_cases hc : o.input = cur ∧ st.visited o.output = false
    · rw [if_pos hc]
      exact ih _ v (pushStep_visited.mpr (Or.inr h))
    · rw [if_neg hc]
      exact ih _ v h

theorem relaxNB_visited_iff (cur : Nat) :
    ∀ (E : List (Nat × Operation)) (st : Search) (v : Nat),
      (relaxNB cur E st).visited v = true ↔
        st.visited v = true ∨ ∃ i o, (i, o) ∈ E ∧ o.input = cur ∧ o.output = v := by
  intro E
  induction E with
  | nil => intro st v; simp [relaxNB]
  | cons x rest ih =>
    intro st v
    obtain ⟨i, o⟩ := x
    show (relaxNB cur rest _).visited v = true ↔ _
    by_cases hc : o.input = cur ∧ st.visited o.output = false
    · rw [if_pos hc, ih]
      constructor
      · rintro (h | ⟨j, o', hmem, hin, hout⟩)
        · rcases pushStep_visited.mp h with h | h
          · exact Or.inr ⟨i, o, List.mem_cons_self _ _, hc.1, h.symm⟩
          · exact Or.inl h
        · exact Or.inr ⟨j, o', List.mem_cons_of_mem _ hmem, hin, hout⟩
      · rintro (h | ⟨j, o', hmem, hin, hout⟩)
        · exact Or.inl (pushStep_visited.mpr (Or.inr h))
        · rcases List.mem_cons.mp hmem with heq | hmem'
          · obtain ⟨hj, ho⟩ := Prod.mk.injEq .. ▸ heq
            subst ho
            exact Or.inl (pushStep_visited.mpr (Or.inl hout.symm))
          · exact Or.inr ⟨j, o', hmem', hin, hout⟩
    · rw [if_neg hc, ih]
      constructor
      · rintro (h | ⟨j, o', hmem, hin, hout⟩)
        · exact Or.inl h
        · exact Or.inr ⟨j, o', List.mem_cons_of_mem _ hmem, hin, hout⟩
      · rintro (h | ⟨j, o', hmem, hin, hout⟩)
        · exact Or.inl h
        · rcases List.mem_cons.mp hmem with heq | hmem'
          · obtain ⟨hj, ho⟩ := Prod.mk.injEq .. ▸ heq
            subst ho
            rcases Decidable.em (st.visited o'.output = true) with hv | hv
            · exact Or.inl (hout ▸ hv)
            · exact absurd ⟨hin, Bool.not_eq_true _ ▸ hv⟩ hc
          · exact Or.inr ⟨j, o', hmem', hin, hout⟩

theorem relaxNB_crumbs_of_visited (cur : Nat) :
    ∀ (E : List (Nat × Operation)) (st : Search) (v : Nat),
      st.visited v = true → (relaxNB cur E st).crumbs v = st.crumbs v := by
  intro E
  induction E with
  | nil => intro st v _; rfl
  | cons x rest ih =>
    intro st v h
    obtain ⟨i, o⟩ := x
    show (relaxNB cur rest _).crumbs v = _
    by_cases hc : o.input = cur ∧ st.visited o.output = false
    · rw [if_pos hc]
      have hne : v ≠ o.output := by
        intro he
        rw [he] at h
        rw [h] at hc
        exact Bool.true_eq_false ▸ hc.2
      rw [ih _ v (pushStep_visited.mpr (Or.inr h)), pushStep_crumbs_ne hne]
    · rw [if_neg hc]
      exact ih _ v h

theorem relaxNB_crumbs_new (cur : Nat) :
    ∀ (E : List (Nat × Operation)) (st : Search)
      (hcv : ∀ u j, st.crumbs u = some j → st.visited u = true) (v i : Nat),
      st.visited v = false → (relaxNB cur E st).crumbs v = some i →
        ∃ o, (i, o) ∈ E ∧ o.input = cur ∧ o.output = v := by
  intro E
  induction E with
  | nil =>
    intro st hcv v i hv h
    rw [show relaxNB cur [] st = st from rfl] at h
    rw [hcv v i h] at hv
    exact absurd hv (by simp)
  | cons x rest ih =>
    intro st hcv v i hv h
    obtain ⟨i0, o⟩ := x
    rw [show relaxNB cur ((i0, o) :: rest) st =
      relaxNB cur rest
        (if o.input = cur ∧ st.visited o.output = false then pushStep i0 o st else st)
      from rfl] at h
    by_cases hc : o.input = cur ∧ st.visited o.output = false
    · rw [if_pos hc] at h
      by_cases hvo : v = o.output
      · have hvis : (pushStep i0 o st).visited v = true := pushStep_visited.mpr (Or.inl hvo)
        rw [relaxNB_crumbs_of_visited cur rest _ v hvis] at h
        have hcc : (pushStep i0 o st).crumbs v = some i0 := by simp [pushStep, hvo]
        rw [hcc] at h
        obtain rfl : i0 = i := by simpa using h
        exact ⟨o, List.mem_cons_self _ _, hc.1, hvo.symm⟩
      · have hvis : (pushStep i0 o st).visited v = false := by
          simp [pushStep, hvo, hv]
        have hcv' : ∀ u j, (pushStep i0 o st).crumbs u = some j →
            (pushStep i0 o st).visited u = true := by
          intro u j hu
          by_cases hu' : u = o.output
          · exact pushStep_visited.mpr (Or.inl hu')
          · rw [pushStep_crumbs_ne hu'] at hu
            exact pushStep_visited.mpr (Or.inr (hcv u j hu))
        obtain ⟨o', hmem, hin, hout⟩ := ih _ hcv' v i hvis h
        exact ⟨o', List.mem_cons_of_mem _ hmem, hin, hout⟩
    · rw [if_neg hc] at h
      obtain ⟨o', hmem, hin, hout⟩ := ih _ hcv v i hv h
      exact ⟨o', List.mem_cons_of_mem _ hmem, hin, hout⟩

theorem relaxNB_vis_crumb (cur : Nat) :
    ∀ (E : List (Nat × Operation)) (st : Search) (v : Nat),
      (relaxNB cur E st).visited v = true →
        st.visited v = true ∨ ∃ i, (relaxNB cur E st).crumbs v = some i := by
  intro E
  induction E with
  | nil => intro st v h; exact Or.inl h
  | cons x rest ih =>
    intro st v h
    obtain ⟨i0, o⟩ := x
    rw [show relaxNB cur ((i0, o) :: rest) st =
      relaxNB cur rest
        (if o.input = cur ∧ st.visited o.output = false then pushStep i0 o st else st)
      from rfl] at h ⊢
    by_cases hc : o.input = cur ∧ st.visited o.output = false
    · rw [if_pos hc] at h ⊢
      rcases ih _ v h with hmid | hex
      · rcases pushStep_visited.mp hmid with hvo | hold
        · refine Or.inr ⟨i0, ?_⟩
          rw [relaxNB_crumbs_of_visited cur rest _ v (pushStep_visited.mpr (Or.inl hvo))]
          simp [pushStep, hvo]
        · exact Or.inl hold
      · exact Or.inr hex
    · rw [if_neg hc] at h ⊢
      exact ih _ v h

theorem relaxNB_queue (cur : Nat) :
    ∀ (E : List (Nat × Operation)) (st : Search),
      ∃ new, (relaxNB cur E st).queue = st.queue ++ new ∧
        (∀ v ∈ new, st.visited v = false ∧ (relaxNB cur E st).visited v = true) ∧
        (∀ v, st.visited v = false → (relaxNB cur E st).visited v = true → v ∈ new) := by
  intro E
  induction E with
  | nil =>
    intro st
    refine ⟨[], by simp [relaxNB], by simp, ?_⟩
    intro v hv hv'
    rw [show relaxNB cur [] st = st from rfl] at hv'
    rw [hv'] at hv
    exact absurd hv (by simp)

  | cons x rest ih =>
    intro st
    obtain ⟨i0, o⟩ := x
    rw [show relaxNB cur ((i0, o) :: rest) st =
      relaxNB cur rest
        (if o.input = cur ∧ st.visited o.output = false then pushStep i0 o st else st)
      from rfl]
    by_cases hc : o.input = cur ∧ st.visited o.output = false
    · rw [if_pos hc]
      obtain ⟨new, hq, hunv, hcompl⟩ := ih (pushStep i0 o st)
      refine ⟨o.output :: new, ?_, ?_, ?_⟩
      · rw [hq]
        simp [pushStep]
      · intro v hv
        rcases List.mem_cons.mp hv with hvo | hv'
        · refine ⟨hvo ▸ hc.2, ?_⟩
          exact relaxNB_visited_mono cur rest _ v (hvo ▸ pushStep_visited.mpr (Or.inl rfl))
        · obtain ⟨hmid, hfin⟩ := hunv v hv'
          refine ⟨?_, hfin⟩
          by_cases hvo : v = o.output
          · exact hvo ▸ hc.2
          · simpa [pushStep, hvo] using hmid
      · intro v hvf hvt
        by_cases hvo : v = o.output
        · exact hvo ▸ List.mem_cons_self _ _
        · have hmid : (pushStep i0 o st).visited v = false := by
            simp [pushStep, hvo, hvf]
          exact List.mem_cons_of_mem _ (hcompl v hmid hvt)
    · rw [if_neg hc]
      exact ih st

theorem cons_two_level_head_le {x : Nat} {xs : List Nat} {d a b : Nat}
    (h : x :: xs = List.replicate a d ++ List.replicate b (d + 1)) :
    ∀ y ∈ x :: xs, x ≤ y := by
  intro y hy
  have hyv : y = d ∨ y = d + 1 := by
    have hy' : y ∈ List.replicate a d ++ List.replicate b (d + 1) := h ▸ hy
    rcases List.mem_append.mp hy' with h' | h'
    · exact Or.inl (List.eq_of_mem_replicate h')
    · exact Or.inr (List.eq_of_mem_replicate h')
  cases a with
  | zero =>
    have hx : x = d + 1 := by
      have hx' : x ∈ List.replicate b (d + 1) := by
        have := h ▸ List.mem_cons_self x xs
        simpa using this
      exact List.eq_of_mem_replicate hx'
    have hy2 : y = d + 1 := by
      have hy' : y ∈ List.replicate b (d + 1) := by
        have := h ▸ hy
        simpa using this
      exact List.eq_of_mem_replicate hy'
    omega
  | succ a2 =>
    have hx : x = d := by
      rw [List.replicate_succ, List.cons_append] at h
      exact (List.cons_eq_cons.mp h).1
    omega

theorem relaxNB_closure (cur : Nat) (E : List (Nat × Operation)) (st : Search)
    {i : Nat} {o : Operation} (hmem : (i, o) ∈ E) (hin : o.input = cur) :
    (relaxNB cur E st).visited o.output = true :=
  (relaxNB_visited_iff cur E st o.output).mpr (Or.inr ⟨i, o, hmem, hin, rfl⟩)

/-! ## Termination measure -/

theorem filter_length_update (v : Nat) (f g : Nat → Bool) (hf : f v = true)
    (hgv : g v = false) (hg : ∀ u, u ≠ v → g u = f u) :
    ∀ l : List Nat, l.Nodup → v ∈ l →
      (l.filter f).length = (l.filter g).length + 1 := by
  intro l
  induction l with
  | nil => intro _ h; exact absurd h (List.not_mem_nil v)
  | cons x rest ih =>
    intro hnd hv
    by_cases hxv : x = v
    · subst hxv
      have hrest : ∀ u ∈ rest, f u = g u := by
        intro u hu
        exact (hg u (fun he => (List.nodup_cons.mp hnd).1 (he ▸ hu))).symm
      rw [List.filter_cons, List.filter_cons, hf, hgv]
      simp only [if_true, List.length_cons]
      rw [if_neg (by simp), List.filter_congr hrest]
    · have hv' : v ∈ rest := by
        rcases List.mem_cons.mp hv with heq | h
        · exact absurd heq.symm hxv
        · exact h
      have hgx := hg x (fun he => hxv he)
      rw [List.filter_cons, List.filter_cons, hgx]
      cases hfx : f x with
      | true =>
        simp only [if_true, List.length_cons]
        rw [ih (List.nodup_cons.mp hnd).2 hv']
      | false =>
        simp only [Bool.false_eq_true, if_false]
        exact ih (List.nodup_cons.mp hnd).2 hv'

theorem unvis_pushStep (drv : Driver) (i : Nat) (o : Operation) (st : Search)
    (hlt : o.output < drv.states.length) (hv : st.visited o.output = false) :
    unvis drv st = unvis drv (pushStep i o st) + 1 := by
  refine filter_length_update o.output _ _ (by simp [hv]) (by simp [pushStep]) ?_
    (List.range drv.states.length) (List.nodup_range _) (List.mem_range.mpr hlt)
  intro u hu
  simp [pushStep, hu]

theorem relaxNB_phi (drv : Driver) (cur : Nat) :
    ∀ (E : List (Nat × Operation)) (st : Search),
      (∀ io ∈ E, (io : Nat × Operation).2.output < drv.states.length) →
      phi drv (relaxNB cur E st) = phi drv st := by
  intro E
  induction E with
  | nil => intro st _; rfl
  | cons x rest ih =>
    intro st hlt
    obtain ⟨i0, o⟩ := x
    show phi drv (relaxNB cur rest _) = _
    by_cases hc : o.input = cur ∧ st.visited o.output = false
    · rw [if_pos hc]
      rw [ih _ (fun io h => hlt io (List.mem_cons_of_mem _ h))]
      have h1 : unvis drv st = unvis drv (pushStep i0 o st) + 1 :=
        unvis_pushStep drv i0 o st (hlt (i0, o) (List.mem_cons_self _ _)) hc.2
      have h2 : (pushStep i0 o st).queue.length = st.queue.length + 1 := by
        simp [pushStep]
      rw [phi, phi, h2]
      omega
    · rw [if_neg hc]
      exact ih _ (fun io h => hlt io (List.mem_cons_of_mem _ h))

/-! ## The loop invariant -/

/-- Any chain reaching a still-unvisited state is at least one step longer
than the distance of the queue head: BFS explores states in distance
order. -/
theorem chain_lower (drv : Driver) (dest : Dest) (start : Nat) {st : Search}
    {D : Nat → Nat} {cur : Nat} {rest : List Nat}
    (hq : st.queue = cur :: rest) (hInv : Inv drv dest start st D) :
    ∀ (p : List Nat) (v : Nat), Chain drv (okIdx drv dest) start p v →
      st.visited v = false → D cur + 1 ≤ p.length := by
  have hmin : ∀ q ∈ st.queue, D cur ≤ D q := by
    obtain ⟨d, a, b, hs⟩ := hInv.queue_shape
    rw [hq] at hs
    intro q hmem
    have : D q ∈ (D cur) :: rest.map D := by
      rw [show (D cur) :: rest.map D = (cur :: rest).map D from rfl, ← hq]
      exact List.mem_map_of_mem D hmem
    exact cons_two_level_head_le (by simpa using hs) (D q) this
  have main : ∀ (n : Nat) (p : List Nat) (v : Nat), p.length = n →
      Chain drv (okIdx drv dest) start p v → st.visited v = false →
      D cur + 1 ≤ p.length := by
    intro n
    induction n using Nat.strong_induction_on with
    | _ n ih =>
      intro p v hlen hchain hv
      rcases chain_split_last hchain with ⟨hpnil, hvs⟩ | ⟨q, j, hpq, hokj, hout, hchq⟩
      · rw [hvs] at hv
        rw [hInv.vis_start] at hv
        exact absurd hv (by simp)
      · subst hpq
        by_cases hu : st.visited ((opAt drv j).input) = true
        · by_cases huq : (opAt drv j).input ∈ st.queue
          · have h1 := hInv.vis_lb _ hu q hchq
            have h2 := hmin _ huq
            simp only [List.length_append, List.length_cons, List.length_nil]
            omega
          · have hcl := hInv.closed _ hu huq j hokj rfl
            rw [hout] at hcl
            rw [hcl] at hv
            exact absurd hv (by simp)
        · have hlt : q.length < n := by
            rw [← hlen]
            simp
          have h3 := ih q.length hlt q _ rfl hchq (by simpa using hu)
          simp only [List.length_append, List.length_cons, List.length_nil]
          omega
  intro p v hchain hv
  exact main p.length p v rfl hchain hv

/-- One iteration of the worklist loop preserves the invariant and decreases
the termination measure by exactly one. -/
theorem bfs_step (drv : Driver) (hwf : drv.Wf) (dest : Dest) (start : Nat)
    {st : Search} {D : Nat → Nat} {cur : Nat} {rest : List Nat}
    (hq : st.queue = cur :: rest) (hInv : Inv drv dest start st D) :
    ∃ Dn, Inv drv dest start (relax dest cur drv.ops.enum { st with queue := rest }) Dn ∧
      phi drv (relax dest cur drv.ops.enum { st with queue := rest }) + 1 = phi drv st := by
  have hcur : st.visited cur = true := hInv.queue_vis cur (by rw [hq]; exact List.mem_cons_self _ _)
  set stP : Search := { st with queue := rest } with hstP
  set E := allowedOps drv dest with hE
  have hEwf : ∀ io ∈ E, (io : Nat × Operation).2.output < drv.states.length := by
    rintro ⟨i, o⟩ hio
    exact allowedOps_output_lt hwf hio
  rw [relax_eq_relaxNB]
  rw [show uptoBreak dest drv.ops.enum = E from rfl]
  set Dn : Nat → Nat := fun v => if st.visited v = true then D v else D cur + 1 with hDn
  set stF := relaxNB cur E stP with hstF
  obtain ⟨new, hqf, hnew, hcompl⟩ := relaxNB_queue cur E stP
  have hvisP : stP.visited = st.visited := rfl
  have hcrP : stP.crumbs = st.crumbs := rfl
  have hold_cv : ∀ u j, stP.crumbs u = some j → stP.visited u = true := by
    intro u j h
    exact (hInv.crumb_sound u j h).2.2.2.1
  have hvisF_iff : ∀ v, stF.visited v = true ↔ st.visited v = true ∨
      ∃ i o, (i, o) ∈ E ∧ o.input = cur ∧ o.output = v := by
    intro v
    exact relaxNB_visited_iff cur E stP v
  have hmono : ∀ v, st.visited v = true → stF.visited v = true := by
    intro v h
    exact relaxNB_visited_mono cur E stP v h
  have hDn_old : ∀ v, st.visited v = true → Dn v = D v := by
    intro v h
    simp [hDn, h]
  have hDn_new : ∀ v, st.visited v = false → Dn v = D cur + 1 := by
    intro v h
    simp [hDn, h]
  refine ⟨Dn, ?_, ?_⟩
  · refine ⟨⟨?_, ?_, ?_, ?_, ?_, ?_⟩, ?_, ?_, ?_⟩
    · -- vis_start
      exact hmono start hInv.vis_start
    · -- d_start
      rw [hDn_old start hInv.vis_start]
      exact hInv.d_start
    · -- crumb_sound
      intro v i h
      by_cases hv : st.visited v = true
      · rw [relaxNB_crumbs_of_visited cur E stP v hv, hcrP] at h
        obtain ⟨hok, hout, hvin, hvv, hD⟩ := hInv.crumb_sound v i h
        refine ⟨hok, hout, hmono _ hvin, hmono _ hvv, ?_⟩
        rw [hDn_old v hvv, hDn_old _ hvin]
        exact hD
      · have hv' : stP.visited v = false := by simpa [hvisP] using hv
        obtain ⟨o, hmem, hin, hout⟩ :=
          relaxNB_crumbs_new cur E stP hold_cv v i hv' h
        have hopAt : opAt drv i = o := allowedOps_opAt hmem
        refine ⟨(mem_allowedOps.mp hmem).1, by rw [hopAt]; exact hout, ?_, ?_, ?_⟩
        · rw [hopAt, hin]
          exact hmono cur hcur
        · exact (hvisF_iff v).mpr (Or.inr ⟨i, o, hmem, hin, hout⟩)
        · rw [hDn_new v (by simpa using hv), hopAt, hin, hDn_old cur hcur]
    · -- vis_crumb
      intro v hvf
      rcases relaxNB_vis_crumb cur E stP v hvf with hold | hex
      · rcases hInv.vis_crumb v hold with hvs | ⟨i, hci⟩
        · exact Or.inl hvs
        · refine Or.inr ⟨i, ?_⟩
          rw [relaxNB_crumbs_of_visited cur E stP v hold, hcrP]
          exact hci
      · exact Or.inr hex
    · -- vis_lb
      intro v hvf p hchain
      by_cases hv : st.visited v = true
      · rw [hDn_old v hv]
        exact hInv.vis_lb v hv p hchain
      · rw [hDn_new v (by simpa using hv)]
        exact chain_lower drv dest start hq hInv p v hchain (by simpa using hv)
    · -- vis_range
      intro v hvf
      rcases (hvisF_iff v).mp hvf with hold | ⟨i, o, hmem, _, hout⟩
      · exact hInv.vis_range v hold
      · rw [← hout]
        exact allowedOps_output_lt hwf hmem
    · -- queue_vis
      intro q hq'
      rw [hqf] at hq'
      rcases List.mem_append.mp hq' with hr | hn
      · exact hmono q (hInv.queue_vis q (by rw [hq]; exact List.mem_cons_of_mem _ hr))
      · exact (hnew q hn).2
    · -- queue_shape
      obtain ⟨d, a, b, hs⟩ := hInv.queue_shape
      rw [hq] at hs
      have hsc : D cur :: rest.map D = List.replicate a d ++ List.replicate b (d + 1) := by
        simpa using hs
      have hmap_rest : rest.map Dn = rest.map D := by
        apply List.map_congr_left
        intro x hx
        exact hDn_old x (hInv.queue_vis x (by rw [hq]; exact List.mem_cons_of_mem _ hx))
      have hmap_new : new.map Dn = List.replicate new.length (D cur + 1) := by
        have : ∀ y ∈ new.map Dn, y = D cur + 1 := by
          intro y hy
          obtain ⟨x, hx, rfl⟩ := List.mem_map.mp hy
          exact hDn_new x (hnew x hx).1
        have h2 := List.eq_replicate_of_mem this
        simpa using h2
      have hqmap : stF.queue.map Dn = rest.map D ++ List.replicate new.length (D cur + 1) := by
        rw [hqf]
        show (rest ++ new).map Dn = _
        rw [List.map_append, hmap_rest, hmap_new]
      cases a with
      | zero =>
        have hb : ∃ b2, b = b2 + 1 := by
          cases b with
          | zero => simp at hsc
          | succ b2 => exact ⟨b2, rfl⟩
        obtain ⟨b2, rfl⟩ := hb
        rw [List.replicate_succ] at hsc
        simp only [List.replicate_zero, List.nil_append] at hsc
        obtain ⟨hcurd, hrest⟩ := List.cons_eq_cons.mp hsc
        refine ⟨d + 1, b2, new.length, ?_⟩
        rw [hqmap, hrest, hcurd]
      | succ a2 =>
        rw [List.replicate_succ, List.cons_append] at hsc
        obtain ⟨hcurd, hrest⟩ := List.cons_eq_cons.mp hsc
        refine ⟨d, a2, b + new.length, ?_⟩
        rw [hqmap, hrest, hcurd, List.append_assoc, ← List.replicate_add]
    · -- closed
      intro u huf hunq i hok hin
      have hmem : (i, opAt drv i) ∈ E := allowedOps_complete hok
      by_cases hu_old : st.visited u = true
      · by_cases hc : u = cur
        · exact relaxNB_closure cur E stP hmem (hin.trans hc)
        · have hu_notq : u ∉ st.queue := by
            rw [hq]
            intro hmem'
            rcases List.mem_cons.mp hmem' with h | h
            · exact hc h
            · apply hunq
              rw [hqf]
              exact List.mem_append.mpr (Or.inl h)
          exact hmono _ (hInv.closed u hu_old hu_notq i hok hin)
      · exfalso
        apply hunq
        rw [hqf]
        refine List.mem_append.mpr (Or.inr ?_)
        exact hcompl u (by simpa using hu_old) huf
  · -- measure
    have h1 : phi drv stF = phi drv stP := relaxNB_phi drv cur E stP hEwf
    have h2 : unvis drv stP = unvis drv st := rfl
    rw [h1]
    show unvis drv stP + stP.queue.length + 1 = unvis drv st + st.queue.length
    rw [h2, hq]
    show unvis drv st + rest.length + 1 = unvis drv st + (rest.length + 1)
    omega

/-- When the queue has drained, the visited set is closed under allowed
edges, so it contains everything reachable from a visited state. -/
theorem visited_complete (drv : Driver) (dest : Dest) (start : Nat) {st : Search}
    {D : Nat → Nat} (hInv : Inv drv dest start st D) (hq : st.queue = []) :
    ∀ (s : Nat) (p : List Nat) (v : Nat), st.visited s = true →
      Chain drv (okIdx drv dest) s p v → st.visited v = true := by
  intro s p v hs hchain
  induction hchain with
  | nil => exact hs
  | cons i hP hin hrest ih =>
    rename_i s' t' rest'
    have hnotq : s' ∉ st.queue := by rw [hq]; exact List.not_mem_nil _
    exact ih (hInv.closed s' hs hnotq i hP hin)

theorem init_inv (drv : Driver) (dest : Dest) (start : Nat)
    (hs : start < drv.states.length) :
    Inv drv dest start (initSearch start) (fun _ => 0) := by
  refine ⟨⟨?_, rfl, ?_, ?_, ?_, ?_⟩, ?_, ?_, ?_⟩
  · simp [initSearch]
  · intro v i h
    exact absurd h (by simp [initSearch])
  · intro v hv
    exact Or.inl (of_decide_eq_true hv)
  · intro v _ p _
    exact Nat.zero_le _
  · intro v hv
    rw [of_decide_eq_true hv]
    exact hs
  · intro q hqm
    have : q = start := by simpa [initSearch] using hqm
    simp [initSearch, this]
  · exact ⟨0, 1, 0, by simp [initSearch]⟩
  · intro u hu hunq i _ _
    rw [of_decide_eq_true hu] at hunq
    exact absurd (by simp [initSearch] : start ∈ (initSearch start).queue) hunq

theorem phi_init (drv : Driver) (start : Nat) (hs : start < drv.states.length) :
    phi drv (initSearch start) = drv.states.length := by
  have h := filter_length_update start (fun _ => true)
    (fun v => !(initSearch start).visited v) rfl (by simp [initSearch])
    (by intro u hu; simp [initSearch, hu])
    (List.range drv.states.length) (List.nodup_range _) (List.mem_range.mpr hs)
  rw [List.filter_true] at h
  rw [List.length_range] at h
  show unvis drv (initSearch start) + 1 = drv.states.length
  rw [unvis]
  omega

theorem bfsLoop_succ_eq (drv : Driver) (dest : Dest) (fuel : Nat) (st : Search) :
    bfsLoop drv dest (fuel + 1) st =
      match st.queue with
      | [] => st
      | cur :: rest =>
        if dest = Dest.state cur then { st with queue := rest }
        else bfsLoop drv dest fuel (relax dest cur drv.ops.enum { st with queue := rest }) := rfl

theorem bfsLoop_post (drv : Driver) (hwf : drv.Wf) (dest : Dest) (start : Nat) :
    ∀ (fuel : Nat) (st : Search) (D : Nat → Nat), Inv drv dest start st D →
      phi drv st < fuel →
      ∃ Dn, CoreInv drv dest start (bfsLoop drv dest fuel st) Dn ∧
        TargetFact drv dest start (bfsLoop drv dest fuel st) := by
  intro fuel
  induction fuel with
  | zero =>
    intro st D hInv hphi
    omega
  | succ fuel ih =>
    intro st D hInv hphi
    cases hq : st.queue with
    | nil =>
      simp only [bfsLoop_succ_eq, hq]
      refine ⟨D, hInv.toCoreInv, ?_⟩
      by_cases hvt : st.visited (segTarget drv dest) = true
      · exact Or.inl hvt
      · refine Or.inr ?_
        intro p hchain
        exact absurd (visited_complete drv dest start hInv hq start p _ hInv.vis_start hchain) hvt
    | cons cur rest =>
      simp only [bfsLoop_succ_eq, hq]
      by_cases hd : dest = Dest.state cur
      · rw [if_pos hd]
        refine ⟨D, ⟨hInv.vis_start, hInv.d_start, hInv.crumb_sound, hInv.vis_crumb,
          hInv.vis_lb, hInv.vis_range⟩, ?_⟩
        refine Or.inl ?_
        have : segTarget drv dest = cur := by rw [hd]; rfl
        rw [this]
        exact hInv.queue_vis cur (by rw [hq]; exact List.mem_cons_self _ _)
      · rw [if_neg hd]
        obtain ⟨Dn, hInv', hphi'⟩ := bfs_step drv hwf dest start hq hInv
        exact ih _ Dn hInv' (by omega)

theorem runBfs_post (drv : Driver) (hwf : drv.Wf) (dest : Dest) (start : Nat)
    (hs : start < drv.states.length) :
    ∃ Dn, CoreInv drv dest start (runBfs drv start dest) Dn ∧
      TargetFact drv dest start (runBfs drv start dest) :=
  bfsLoop_post drv hwf dest start (drv.states.length + 1) (initSearch start) (fun _ => 0)
    (init_inv drv dest start hs) (by rw [phi_init drv start hs]; omega)

/-! ## Distances are bounded and the breadcrumb walk terminates -/

theorem coreInv_d_layers (drv : Driver) (dest : Dest) (start : Nat) (st : Search)
    (D : Nat → Nat) (h : CoreInv drv dest start st D) :
    ∀ (n : Nat) (v : Nat), D v = n → st.visited v = true →
      ∀ k, k ≤ n → ∃ u, st.visited u = true ∧ D u = k := by
  intro n
  induction n using Nat.strong_induction_on with
  | _ n ih =>
    intro v hDv hv k hk
    by_cases hkn : k = n
    · exact ⟨v, hv, by rw [hDv, hkn]⟩
    · have hkn' : k < n := Nat.lt_of_le_of_ne hk hkn
      rcases h.vis_crumb v hv with hvs | ⟨i, hci⟩
      · rw [hvs] at hDv
        rw [h.d_start] at hDv
        omega
      · obtain ⟨_, _, hvin, _, hD⟩ := h.crumb_sound v i hci
        have hin_lt : D ((opAt drv i).input) = n - 1 := by omega
        exact ih (n - 1) (by omega) _ hin_lt hvin k (by omega)

theorem coreInv_d_lt (drv : Driver) (dest : Dest) (start : Nat) (st : Search)
    (D : Nat → Nat) (h : CoreInv drv dest start st D) {v : Nat}
    (hv : st.visited v = true) : D v < drv.states.length := by
  by_contra hge
  push_neg at hge
  have hlayers := coreInv_d_layers drv dest start st D h (D v) v rfl hv
  choose u hu hDu using fun k : Fin (D v + 1) => hlayers k.1 (Nat.lt_succ_iff.mp k.2)
  have hinj : Function.Injective
      (fun k : Fin (D v + 1) => (⟨u k, h.vis_range _ (hu k)⟩ : Fin drv.states.length)) := by
    intro k1 k2 he
    apply Fin.ext
    have huu : u k1 = u k2 := by simpa using he
    have hc := congrArg D huu
    rw [hDu k1, hDu k2] at hc
    exact hc
  have hcard := Fintype.card_le_of_injective _ hinj
  simp only [Fintype.card_fin] at hcard
  omega

theorem backtrack_succ_eq (drv : Driver) (crumbs : Nat → Option Nat) (start fuel cur : Nat)
    (acc : List Nat) :
    backtrack drv crumbs start (fuel + 1) cur acc =
      if cur = start then some acc
      else
        match crumbs cur with
        | some i => backtrack drv crumbs start fuel ((opAt drv i).input) (i :: acc)
        | none => none := rfl

theorem backtrack_some (drv : Driver) (dest : Dest) (start : Nat) {st : Search}
    {D : Nat → Nat} (h : CoreInv drv dest start st D) :
    ∀ (fuel cur : Nat) (acc : List Nat), st.visited cur = true → D cur < fuel →
      ∃ p, backtrack drv st.crumbs start fuel cur acc = some (p ++ acc) ∧
        Chain drv (okIdx drv dest) start p cur ∧ p.length = D cur := by
  intro fuel
  induction fuel with
  | zero =>
    intro cur acc hv hD
    omega
  | succ fuel ih =>
    intro cur acc hv hD
    rw [backtrack_succ_eq]
    by_cases hc : cur = start
    · subst hc
      refine ⟨[], by simp, Chain.nil _, ?_⟩
      rw [h.d_start]
      rfl
    · rcases h.vis_crumb cur hv with hcs | ⟨i, hci⟩
      · exact absurd hcs hc
      · obtain ⟨hok, hout, hvin, _, hD'⟩ := h.crumb_sound cur i hci
        obtain ⟨p, hp, hchain, hlen⟩ := ih ((opAt drv i).input) (i :: acc) hvin (by omega)
        simp only [if_neg hc, hci]
        refine ⟨p ++ [i], ?_, ?_, ?_⟩
        · rw [hp]
          simp
        · have hsnoc := chain_snoc hchain hok rfl
          rw [hout] at hsnoc
          exact hsnoc
        · simp only [List.length_append, List.length_cons, List.length_nil]
          omega

theorem backtrack_unvisited (drv : Driver) (dest : Dest) (start : Nat) {st : Search}
    {D : Nat → Nat} (h : CoreInv drv dest start st D) (fuel cur : Nat) (acc : List Nat)
    (hv : st.visited cur = false) :
    backtrack drv st.crumbs start (fuel + 1) cur acc = none := by
  have hc : cur ≠ start := by
    intro he
    rw [he, h.vis_start] at hv
    exact absurd hv (by simp)
  have hcr : st.crumbs cur = none := by
    cases hcc : st.crumbs cur with
    | none => rfl
    | some i =>
      have hvis := (h.crumb_sound cur i hcc).2.2.2.1
      rw [hvis] at hv
      exact absurd hv (by simp)
  rw [backtrack_succ_eq, if_neg hc, hcr]

/-! ## Segment correctness -/

theorem segInit_snd (drv : Driver) (dest : Dest) :
    (segInit drv dest).2 = segTarget drv dest := by
  cases dest <;> rfl

theorem segWrap_eq (drv : Driver) (dest : Dest) (σ : List Nat) :
    σ ++ (segInit drv dest).1 = segWrap dest σ := by
  cases dest <;> simp [segInit, segWrap]

/-- Full functional correctness of `find_path_segment`: a result is a
shortest chain to the destination (over the edges the search explores,
wrapped with the goal edge for an operation destination), and `None` is
returned exactly when no such chain exists. -/
theorem findPathSegment_correct (drv : Driver) (hwf : drv.Wf) (start : Nat)
    (hs : start < drv.states.length) (dest : Dest) :
    (∀ p, findPathSegment drv start dest = some p →
      ∃ σ, p = segWrap dest σ ∧
        Chain drv (okIdx drv dest) start σ (segTarget drv dest) ∧
        ∀ τ, Chain drv (okIdx drv dest) start τ (segTarget drv dest) →
          σ.length ≤ τ.length) ∧
    (findPathSegment drv start dest = none →
      ∀ σ, ¬ Chain drv (okIdx drv dest) start σ (segTarget drv dest)) := by
  obtain ⟨Dn, hcore, htf⟩ := runBfs_post drv hwf dest start hs
  have hfps : findPathSegment drv start dest =
      backtrack drv (runBfs drv start dest).crumbs start (drv.states.length + 1)
        (segTarget drv dest) (segInit drv dest).1 := by
    rw [findPathSegment, segInit_snd]
  by_cases hvt : (runBfs drv start dest).visited (segTarget drv dest) = true
  · have hDlt := coreInv_d_lt drv dest start _ Dn hcore hvt
    obtain ⟨σ, hbt, hchain, hlen⟩ := backtrack_some drv dest start hcore
      (drv.states.length + 1) (segTarget drv dest) (segInit drv dest).1 hvt (by omega)
    rw [hfps, hbt]
    constructor
    · intro p hp
      obtain rfl : σ ++ (segInit drv dest).1 = p := by
        injection hp
      refine ⟨σ, segWrap_eq drv dest σ, hchain, ?_⟩
      intro τ hτ
      rw [hlen]
      exact hcore.vis_lb _ hvt τ hτ
    · intro hnone
      exact absurd hnone (by simp)
  · have hvf : (runBfs drv start dest).visited (segTarget drv dest) = false := by
      simpa using hvt
    have hnone := backtrack_unvisited drv dest start hcore drv.states.length
      (segTarget drv dest) (segInit drv dest).1 hvf
    rw [hfps, hnone]
    constructor
    · intro p hp
      exact absurd hp (by simp)
    · intro _ σ hchain
      rcases htf with hvis | hunreach
      · exact absurd hvis hvt
      · exact hunreach σ hchain

/-! ## Correctness of `find_path` -/

theorem opAt_mem (drv : Driver) {w : Nat} (hw : w < drv.ops.length) :
    opAt drv w ∈ drv.ops := by
  rw [opAt, List.getD_eq_getElem _ _ hw]
  exact List.getElem_mem hw

theorem pathDecomp_chain (drv : Driver) (endState : Nat) :
    ∀ (through : List Nat) (s : Nat) (p : List Nat),
      (∀ w ∈ through, w < drv.ops.length) →
      PathDecomp drv endState s through p →
      OpChain drv s p endState ∧ through.Sublist p := by
  intro through
  induction through with
  | nil =>
    intro s p _ hd
    exact ⟨chain_mono (fun i h => h.1) hd.1, List.nil_sublist p⟩
  | cons w rest ih =>
    intro s p hwlt hd
    obtain ⟨σ, pr, rfl, hσ, _, hd'⟩ := hd
    obtain ⟨hcp', hsub⟩ := ih _ pr (fun x hx => hwlt x (List.mem_cons_of_mem _ hx)) hd'
    constructor
    · have hσ' : OpChain drv s σ ((opAt drv w).input) := chain_mono (fun i h => h.1) hσ
      have hw : OpChain drv ((opAt drv w).input) (w :: pr) endState :=
        Chain.cons w (hwlt w (List.mem_cons_self _ _)) rfl hcp'
      exact chain_append hσ' hw
    · have h1 : (w :: rest).Sublist (w :: pr) := hsub.cons₂ w
      have h2 : (w :: pr).Sublist (σ ++ w :: pr) := List.sublist_append_right σ _
      exact h1.trans h2

theorem find_path_through_correct (drv : Driver) (hwf : drv.Wf) (endState : Nat) :
    ∀ (through : List Nat) (s : Nat), s < drv.states.length →
      (∀ w ∈ through, w < drv.ops.length) →
      SegsExist drv endState s through →
      ∃ p, findPath drv s endState through = some p ∧
        PathDecomp drv endState s through p := by
  intro through
  induction through with
  | nil =>
    intro s hs _ hex
    obtain ⟨σ0, hσ0⟩ := hex
    cases hres : findPathSegment drv s (Dest.state endState) with
    | none => exact absurd hσ0 ((findPathSegment_correct drv hwf s hs _).2 hres σ0)
    | some p =>
      obtain ⟨σ, hpeq, hchain, hmin⟩ :=
        (findPathSegment_correct drv hwf s hs (Dest.state endState)).1 p hres
      refine ⟨p, hres, ?_⟩
      rw [show p = σ from hpeq]
      exact ⟨hchain, hmin⟩
  | cons w rest ih =>
    intro s hs hwlt hex
    obtain ⟨⟨σ0, hσ0⟩, hex'⟩ := hex
    cases hres : findPathSegment drv s (Dest.op w) with
    | none => exact absurd hσ0 ((findPathSegment_correct drv hwf s hs _).2 hres σ0)
    | some seg =>
      obtain ⟨σ, hseq, hchain, hmin⟩ :=
        (findPathSegment_correct drv hwf s hs (Dest.op w)).1 seg hres
      have hw : w < drv.ops.length := hwlt w (List.mem_cons_self _ _)
      have hout_lt : (opAt drv w).output < drv.states.length :=
        (hwf _ (opAt_mem drv hw)).2
      obtain ⟨pr, hpr, hd'⟩ := ih ((opAt drv w).output) hout_lt
        (fun x hx => hwlt x (List.mem_cons_of_mem _ hx)) hex'
      refine ⟨seg ++ pr, ?_, ?_⟩
      · simp [findPath, hres, hpr]
      · refine ⟨σ, pr, ?_, hchain, hmin, hd'⟩
        rw [hseq]
        simp [segWrap]

/-! ## Claim C3 -/

/-- Claim C3: for a request with no waypoints, the planner's path search is
deterministic, and a returned chain is an operation chain from the start to
the end state of minimal length among all chains in the catalog graph
(shortest-hop BFS). -/
theorem find_path_no_waypoints_shortest (drv : Driver) (hwf : drv.Wf) (s e : Nat)
    (hs : s < drv.states.length) (p : List Nat)
    (hp : findPath drv s e [] = some p) :
    OpChain drv s p e ∧ (∀ q, OpChain drv s q e → p.length ≤ q.length) ∧
      ∀ q, findPath drv s e [] = some q → q.length = p.length := by
  have hseg : findPathSegment drv s (Dest.state e) = some p := hp
  obtain ⟨σ, hpeq, hchain, hmin⟩ :=
    (findPathSegment_correct drv hwf s hs (Dest.state e)).1 p hseg
  obtain rfl : p = σ := hpeq
  refine ⟨chain_mono (fun i h => h.1) hchain, ?_, ?_⟩
  · intro q hq
    exact hmin q (chain_mono (fun i h => ⟨h, trivial⟩) hq)
  · intro q hq
    rw [hp] at hq
    injection hq with h
    rw [h]

/-- Witness for C3: in `abDriver` the unique chain `[ab]` from A to B is
returned and is shortest. -/
theorem find_path_no_waypoints_shortest_witness :
    OpChain abDriver 0 [0] 1 ∧ (∀ q, OpChain abDriver 0 q 1 → 1 ≤ q.length) ∧
      ∀ q, findPath abDriver 0 1 [] = some q → q.length = 1 := by
  have h := find_path_no_waypoints_shortest abDriver (by unfold Driver.Wf; decide) 0 1
    (by decide) [0] (by decide)
  simpa using h

/-! ## Claim C1 -/

/-- Claim C1 counterexample: in `loopDriver` the chain `[ab, loop]` runs
from S0 to S1 and traverses the waypoint `loop` in order, yet `find_path`
returns `None`: while searching for the waypoint edge, the inner loop of
`find_path_segment` stops iterating at the waypoint's own registration
index, so the later-registered edge `ab` is never relaxed. -/
theorem find_path_misses_waypoint_chain :
    ThroughChain loopDriver 0 1 [0] [1, 0] ∧ findPath loopDriver 0 1 [0] = none := by
  refine ⟨⟨?_, by decide⟩, by decide⟩
  exact Chain.cons 1 (by decide) (by decide)
    (Chain.cons 0 (by decide) (by decide) (Chain.nil _))

/-- Claim C1 (amended): whenever each waypoint's input state is reachable
from the current state using only operations registered no later than that
waypoint, and the end state is reachable from the last waypoint's output,
`find_path` succeeds; the result decomposes into shortest-hop BFS segments
(each over its waypoint-truncated edge set) with the waypoints appended in
order, and it is an operation chain traversing the waypoints in order (never
skipping one). -/
theorem find_path_waypoints_correct (drv : Driver) (hwf : drv.Wf)
    (s e : Nat) (through : List Nat) (hs : s < drv.states.length)
    (hth : ∀ w ∈ through, w < drv.ops.length)
    (hex : SegsExist drv e s through) :
    ∃ p, findPath drv s e through = some p ∧ ThroughChain drv s e through p ∧
      PathDecomp drv e s through p := by
  obtain ⟨p, hp, hd⟩ := find_path_through_correct drv hwf e through s hs hth hex
  obtain ⟨hchain, hsub⟩ := pathDecomp_chain drv e through s p hth hd
  exact ⟨p, hp, ⟨hchain, hsub⟩, hd⟩

/-- Witness for the amended C1 in `twoHopDriver` with waypoint `p`. -/
theorem find_path_waypoints_correct_witness :
    ∃ pth, findPath twoHopDriver 0 2 [0] = some pth ∧
      ThroughChain twoHopDriver 0 2 [0] pth ∧ PathDecomp twoHopDriver 2 0 [0] pth :=
  find_path_waypoints_correct twoHopDriver (by unfold Driver.Wf; decide) 0 2 [0]
    (by decide) (by decide)
    ⟨⟨[], Chain.nil 0⟩, ⟨[1], Chain.cons 1 ⟨by decide, trivial⟩ (by decide) (Chain.nil _)⟩⟩

/-! ## Claim C2 -/

/-- Claim C2: a request whose start state equals its end state with no
waypoints yields the empty operation chain, and `plan` then panics instead
of succeeding: with file endpoints, `steps.last_mut().expect("no steps")`
fires on the empty step list; with stream endpoints, `self.ops[path[0]]`
indexes the empty path.  The `expect` message documents the assumption the
scenario violates, so the code, not the claim, is at fault. -/
theorem plan_trivial_request_panics :
    findPath abDriver 0 0 [] = some [] ∧
    plan abDriver ⟨0, 0, some "in.a", some "out.a", [], "."⟩ = Outcome.panicked ∧
    plan abDriver ⟨0, 0, none, none, [], "."⟩ = Outcome.panicked := by
  refine ⟨by decide, by decide, by decide⟩

/-! ## Claim C8 -/

/-- Claim C8 counterexample: with a clean scratch directory and
`keep_build_dir` unset, an executor run that spawns fine but exits non-zero
is reported as success and the directory is still deleted: `cmd.status()?`
only propagates spawn errors, and the exit status value is dropped. -/
theorem executor_failure_ignored :
    (emitAndRun ⟨false, false, true, true, false⟩).result = ExecResult.success ∧
    (emitAndRun ⟨false, false, true, true, false⟩).dirRemoved = true := by
  exact ⟨rfl, rfl⟩

/-- Claim C8 (amended): once the script is emitted and the executor spawns,
the run always reports success and the executor's exit status is ignored;
the scratch directory is deleted exactly when it did not pre-exist and
`keep_build_dir` is unset, irrespective of the exit status.  An error is
surfaced (and the directory left in place) only when emission or spawning
itself fails. -/
theorem emit_and_run_effects (env : ExecEnv) (hemit : env.emitOk = true)
    (hspawn : env.spawnOk = true) :
    (emitAndRun env).result = ExecResult.success ∧
    ((emitAndRun env).dirRemoved = true ↔
      env.keepBuildDir = false ∧ env.dirExisted = false) ∧
    (∀ b, emitAndRun { env with exitZero := b } = emitAndRun env) := by
  obtain ⟨k, d, eo, sp, ez⟩ := env
  obtain rfl : eo = true := hemit
  obtain rfl : sp = true := hspawn
  refine ⟨?_, ?_, ?_⟩ <;> cases k <;> cases d <;> simp [emitAndRun]

/-- Witness for the amended C8 at a concrete environment. -/
theorem emit_and_run_effects_witness :
    (emitAndRun ⟨true, false, true, true, true⟩).result = ExecResult.success ∧
    ((emitAndRun ⟨true, false, true, true, true⟩).dirRemoved = true ↔
      (true : Bool) = false ∧ (false : Bool) = false) ∧
    (∀ b, emitAndRun ⟨true, false, true, true, b⟩ = emitAndRun ⟨true, false, true, true, true⟩) :=
  emit_and_run_effects ⟨true, false, true, true, true⟩ rfl rfl

/-! ## Claim C10 -/

theorem extMatches_iff (st : State) (e : String) :
    extMatches st e = true ↔ e ∈ st.extensions := by
  simp [extMatches, List.any_eq_true, beq_iff_eq]

theorem findState_enumFrom_spec (ext : String) :
    ∀ (l : List State) (k : Nat),
      (findState ext (List.enumFrom k l) = none ∧
        ∀ j st, l.get? j = some st → extMatches st ext = false) ∨
      (∃ jj st, findState ext (List.enumFrom k l) = some (k + jj) ∧
        l.get? jj = some st ∧ extMatches st ext = true ∧
        ∀ j st2, j < jj → l.get? j = some st2 → extMatches st2 ext = false) := by
  intro l
  induction l with
  | nil =>
    intro k
    refine Or.inl ⟨rfl, ?_⟩
    intro j st h
    simp at h
  | cons st0 rest ih =>
    intro k
    show (findState ext ((k, st0) :: List.enumFrom (k + 1) rest) = none ∧ _) ∨ _
    cases hm : extMatches st0 ext with
    | true =>
      refine Or.inr ⟨0, st0, ?_, rfl, hm, ?_⟩
      · simp [findState, hm]
      · intro j st2 hj _
        omega
    | false =>
      rcases ih (k + 1) with ⟨hn, hall⟩ | ⟨jj, st, hsome, hget, hmt, hmin⟩
      · refine Or.inl ⟨?_, ?_⟩
        · simp [findState, hm, hn]
        · intro j st h
          cases j with
          | zero =>
            obtain rfl : st0 = st := by simpa using h
            exact hm
          | succ j2 => exact hall j2 st (by simpa using h)
      · refine Or.inr ⟨jj + 1, st, ?_, by simpa using hget, hmt, ?_⟩
        · have : k + 1 + jj = k + (jj + 1) := by omega
          simp [findState, hm, this ▸ hsome]
        · intro j st2 hj h
          cases j with
          | zero =>
            obtain rfl : st0 = st2 := by simpa using h
            exact hm
          | succ j2 => exact hmin j2 st2 (by omega) (by simpa using h)

/-- Claim C10: `guess_state` returns `None` for a path with no extension;
for a path whose final extension is `e` it returns the earliest-registered
state whose extension list contains `e` anywhere, or `None` when no state
matches. -/
theorem guess_state_spec (drv : Driver) (path : String) :
    (extensionPath path = none → guessState drv path = none) ∧
    (∀ e, extensionPath path = some e →
      ((∀ j st, drv.states.get? j = some st → e ∉ st.extensions) ∧
        guessState drv path = none) ∨
      (∃ i st, guessState drv path = some i ∧ drv.states.get? i = some st ∧
        e ∈ st.extensions ∧
        ∀ j st2, j < i → drv.states.get? j = some st2 → e ∉ st2.extensions)) := by
  constructor
  · intro h
    simp [guessState, h]
  · intro e he
    have hg : guessState drv path = findState e drv.states.enum := by
      simp [guessState, he]
    rcases findState_enumFrom_spec e drv.states 0 with ⟨hn, hall⟩ | ⟨jj, st, hsome, hget, hmt, hmin⟩
    · refine Or.inl ⟨?_, ?_⟩
      · intro j st h hmem
        have := hall j st h
        rw [(extMatches_iff st e).mpr hmem] at this
        exact absurd this (by simp)
      · rw [hg]
        exact hn
    · refine Or.inr ⟨jj, st, ?_, hget, (extMatches_iff st e).mp hmt, ?_⟩
      · rw [hg]
        simpa using hsome
      · intro j st2 hj h hmem
        have := hmin j st2 hj h
        rw [(extMatches_iff st2 e).mpr hmem] at this
        exact absurd this (by simp)

/-! ## Claims C5 and C6: the emitter -/

theorem emitSetupsLoop_eq (drv : Driver) :
    ∀ (refs done : List Nat),
      emitSetupsLoop drv refs done =
        ((stanzaRefs refs done).map (setupStanza drv)).flatten := by
  intro refs
  induction refs with
  | nil => intro done; rfl
  | cons r rest ih =>
    intro done
    by_cases h : r ∈ done
    · simp [emitSetupsLoop, stanzaRefs, h, ih]
    · simp [emitSetupsLoop, stanzaRefs, h, ih]

theorem buildSection_eq_zip (drv : Driver) :
    ∀ (steps : List (Nat × String)) (last : String),
      buildSection drv last steps =
        ((steps.zip (last :: steps.map Prod.snd)).map
          (fun sp => (opAt drv sp.1.1).emitB sp.2 sp.1.2)).flatten := by
  intro steps
  induction steps with
  | nil => intro last; rfl
  | cons s rest ih =>
    intro last
    obtain ⟨op, out⟩ := s
    simp only [List.map_cons, List.zip_cons_cons, List.flatten_cons]
    rw [show buildSection drv last ((op, out) :: rest) =
      (opAt drv op).emitB last out ++ buildSection drv out rest from rfl]
    rw [ih out]

theorem lastFile_eq (start : String) :
    ∀ steps : List (Nat × String),
      lastFile start steps = (steps.map Prod.snd).getLastD start := by
  have main : ∀ (steps : List (Nat × String)) (s0 : String),
      lastFile s0 steps = (steps.map Prod.snd).getLastD s0 := by
    intro steps
    induction steps with
    | nil => intro s0; rfl
    | cons s rest ih =>
      intro s0
      rw [show lastFile s0 (s :: rest) = lastFile s.2 rest from rfl, ih s.2]
      rw [List.map_cons, List.getLastD_cons]
  intro steps
  exact main steps start

theorem stanzaRefs_mem : ∀ (refs done : List Nat) (x : Nat),
    x ∈ stanzaRefs refs done ↔ x ∈ refs ∧ x ∉ done := by
  intro refs
  induction refs with
  | nil =>
    intro done x
    simp [stanzaRefs]
  | cons r rest ih =>
    intro done x
    by_cases h : r ∈ done
    · rw [show stanzaRefs (r :: rest) done = stanzaRefs rest done from by
        simp [stanzaRefs, h]]
      rw [ih done x]
      constructor
      · rintro ⟨hx, hnd⟩
        exact ⟨List.mem_cons_of_mem _ hx, hnd⟩
      · rintro ⟨hx, hnd⟩
        rcases List.mem_cons.mp hx with rfl | hx'
        · exact absurd h hnd
        · exact ⟨hx', hnd⟩
    · rw [show stanzaRefs (r :: rest) done = r :: stanzaRefs rest (r :: done) from by
        simp [stanzaRefs, h]]
      constructor
      · intro hx
        rcases List.mem_cons.mp hx with rfl | hx'
        · exact ⟨List.mem_cons_self _ _, h⟩
        · obtain ⟨h1, h2⟩ := (ih (r :: done) x).mp hx'
          exact ⟨List.mem_cons_of_mem _ h1, fun hc => h2 (List.mem_cons_of_mem _ hc)⟩
      · rintro ⟨hx, hnd⟩
        rcases List.mem_cons.mp hx with rfl | hx'
        · exact List.mem_cons_self _ _
        · by_cases hxr : x = r
          · exact hxr ▸ List.mem_cons_self _ _
          · refine List.mem_cons_of_mem _ ((ih (r :: done) x).mpr ⟨hx', ?_⟩)
            intro hc
            rcases List.mem_cons.mp hc with h1 | h1
            · exact hxr h1
            · exact hnd h1

theorem stanzaRefs_nodup : ∀ (refs done : List Nat), (stanzaRefs refs done).Nodup := by
  intro refs
  induction refs with
  | nil => intro done; simp [stanzaRefs]
  | cons r rest ih =>
    intro done
    by_cases h : r ∈ done
    · simpa [stanzaRefs, h] using ih done
    · rw [show stanzaRefs (r :: rest) done = r :: stanzaRefs rest (r :: done) from by
        simp [stanzaRefs, h]]
      refine List.nodup_cons.mpr ⟨?_, ih (r :: done)⟩
      intro hc
      exact ((stanzaRefs_mem rest (r :: done) r).mp hc).2 (List.mem_cons_self _ _)

theorem stanzaRefs_length (refs : List Nat) :
    (stanzaRefs refs []).length = refs.toFinset.card := by
  have hnd := stanzaRefs_nodup refs []
  have hfs : (stanzaRefs refs []).toFinset = refs.toFinset := by
    ext x
    simp [List.mem_toFinset, stanzaRefs_mem refs [] x]
  rw [← List.toFinset_card_of_nodup hnd, hfs]

/-- Claim C5: the emitted script is exactly the de-duplicated setup stanzas
(in first-encounter order over plan steps, each a `# name` header, the setup
body, and a blank line), then the `# build targets` comment, then one build
emission per step in plan order with each operation invoked on the previous
step's output as its input, then a blank line, and the final line is
`default` followed by the last output (the last step's filename, or the plan
start when there are no steps). -/
theorem emit_structure (drv : Driver) (p : Plan) :
    emit drv p =
      ((stanzaRefs (planSetupRefs drv p.steps) []).map (setupStanza drv)).flatten
        ++ ["# build targets"]
        ++ ((p.steps.zip (p.start :: p.steps.map Prod.snd)).map
            (fun sp => (opAt drv sp.1.1).emitB sp.2 sp.1.2)).flatten
        ++ [""]
        ++ ["default " ++ (p.steps.map Prod.snd).getLastD p.start] ∧
    (emit drv p).getLast? =
      some ("default " ++ (p.steps.map Prod.snd).getLastD p.start) := by
  constructor
  · rw [emit, emitSetupsLoop_eq drv (planSetupRefs drv p.steps) [],
      buildSection_eq_zip drv p.steps p.start, lastFile_eq p.start p.steps]
  · rw [emit, List.getLast?_concat, lastFile_eq p.start p.steps]

/-- Claim C6: each setup is emitted exactly once however many plan
operations reference it: the emitted stanza sequence follows the
de-duplicated reference list, which has no duplicates, contains exactly the
setup handles referenced by the plan's operations (so two distinct handles
with identical bodies are both emitted), and whose length is the number of
distinct referenced handles. -/
theorem setup_stanzas_distinct (drv : Driver) (p : Plan) :
    emitSetupsLoop drv (planSetupRefs drv p.steps) [] =
      ((stanzaRefs (planSetupRefs drv p.steps) []).map (setupStanza drv)).flatten ∧
    (stanzaRefs (planSetupRefs drv p.steps) []).Nodup ∧
    (∀ s, s ∈ stanzaRefs (planSetupRefs drv p.steps) [] ↔
      s ∈ planSetupRefs drv p.steps) ∧
    (stanzaRefs (planSetupRefs drv p.steps) []).length =
      (planSetupRefs drv p.steps).toFinset.card := by
  refine ⟨emitSetupsLoop_eq drv _ _, stanzaRefs_nodup _ _, ?_, stanzaRefs_length _⟩
  intro s
  rw [stanzaRefs_mem]
  simp

/-- Witness for C10: in `abDriver`, the path `f.b` is assigned state B and
`noext` has no extension. -/
theorem guess_state_spec_witness :
    (((∀ j st, abDriver.states.get? j = some st → "b" ∉ st.extensions) ∧
        guessState abDriver "f.b" = none) ∨
      (∃ i st, guessState abDriver "f.b" = some i ∧ abDriver.states.get? i = some st ∧
        "b" ∈ st.extensions ∧
        ∀ j st2, j < i → abDriver.states.get? j = some st2 → "b" ∉ st2.extensions)) ∧
    guessState abDriver "noext" = none := by
  constructor
  · exact (guess_state_spec abDriver "f.b").2 "b" (by decide)
  · exact (guess_state_spec abDriver "noext").1 (by decide)

/-! ## Dissecting `plan` -/

theorem genSteps_char (drv : Driver) (stem : String) :
    ∀ (path : List Nat) (gsteps : List (Nat × String)),
      genSteps drv stem path = some gsteps →
      gsteps.length = path.length ∧
      gsteps.map Prod.snd = (extsOf drv path).map (fun e => withExtension stem e) ∧
      ∀ k op, path.get? k = some op →
        ∃ ext, (stateAt drv ((opAt drv op).output)).extensions.head? = some ext ∧
          gsteps.get? k = some (op, withExtension stem ext) := by
  intro path
  induction path with
  | nil =>
    intro gsteps h
    obtain rfl : ([] : List (Nat × String)) = gsteps := by simpa [genSteps] using h
    refine ⟨rfl, rfl, ?_⟩
    intro k op hk
    simp at hk
  | cons op rest ih =>
    intro gsteps h
    rw [show genSteps drv stem (op :: rest) =
      (match genName drv stem ((opAt drv op).output) with
       | none => none
       | some filename => (genSteps drv stem rest).map (fun l => (op, filename) :: l))
      from rfl] at h
    cases hgn : genName drv stem ((opAt drv op).output) with
    | none =>
      rw [hgn] at h
      exact absurd h (by simp)
    | some fn =>
      rw [hgn] at h
      cases hrest : genSteps drv stem rest with
      | none =>
        rw [hrest] at h
        exact absurd h (by simp)
      | some l =>
        rw [hrest] at h
        obtain rfl : (op, fn) :: l = gsteps := by simpa using h
        obtain ⟨hlen, hnames, hchar⟩ := ih l hrest
        have hext : ∃ ext, (stateAt drv ((opAt drv op).output)).extensions.head? = some ext ∧
            fn = withExtension stem ext := by
          rw [genName] at hgn
          cases hh : (stateAt drv ((opAt drv op).output)).extensions.head? with
          | none => rw [hh] at hgn; exact absurd hgn (by simp)
          | some ext =>
            rw [hh] at hgn
            exact ⟨ext, rfl, by simpa using hgn.symm⟩
        obtain ⟨ext, hh, rfl⟩ := hext
        refine ⟨by simp [hlen], ?_, ?_⟩
        · simp only [extsOf, List.map_cons, hh, Option.getD_some]
          refine List.cons_eq_cons.mpr ⟨rfl, ?_⟩
          simpa [extsOf] using hnames
        · intro k op2 hk
          cases k with
          | zero =>
            obtain rfl : op = op2 := by simpa using hk
            exact ⟨ext, hh, rfl⟩
          | succ k2 =>
            exact hchar k2 op2 (by simpa using hk)

theorem setLast_length (r : String) :
    ∀ l : List (Nat × String), (setLast l r).length = l.length := by
  intro l
  induction l with
  | nil => rfl
  | cons x xs ih =>
    cases xs with
    | nil => rfl
    | cons y ys =>
      show (x :: setLast (y :: ys) r).length = _
      simp only [List.length_cons]
      rw [show (setLast (y :: ys) r).length = (y :: ys).length from ih]
      simp

theorem setLast_ne_nil (r : String) :
    ∀ l : List (Nat × String), l ≠ [] → setLast l r ≠ [] := by
  intro l hl
  cases l with
  | nil => exact absurd rfl hl
  | cons x xs =>
    cases xs with
    | nil => simp [setLast]
    | cons y ys => simp [setLast]

theorem setLast_cons_of_ne (r : String) (x : Nat × String) (l : List (Nat × String))
    (hl : l ≠ []) : setLast (x :: l) r = x :: setLast l r := by
  cases l with
  | nil => exact absurd rfl hl
  | cons y ys => rfl

theorem setLast_dropLast (r : String) :
    ∀ l : List (Nat × String), (setLast l r).dropLast = l.dropLast := by
  intro l
  induction l with
  | nil => rfl
  | cons x xs ih =>
    cases xs with
    | nil => rfl
    | cons y ys =>
      rw [setLast_cons_of_ne r x (y :: ys) (by simp)]
      rw [List.dropLast_cons_of_ne_nil (setLast_ne_nil r (y :: ys) (by simp))]
      rw [List.dropLast_cons_of_ne_nil (by simp : (y :: ys) ≠ [])]
      rw [ih]

theorem setLast_getLast? (r : String) :
    ∀ l : List (Nat × String), l ≠ [] →
      ∃ x, l.getLast? = some x ∧ (setLast l r).getLast? = some (x.1, r) := by
  intro l
  induction l with
  | nil => intro h; exact absurd rfl h
  | cons x xs ih =>
    intro _
    cases xs with
    | nil => exact ⟨x, rfl, rfl⟩
    | cons y ys =>
      obtain ⟨z, hz1, hz2⟩ := ih (by simp)
      refine ⟨z, ?_, ?_⟩
      · rw [List.getLast?_cons_cons]
        exact hz1
      · rw [setLast_cons_of_ne r x (y :: ys) (by simp)]
        have hne := setLast_ne_nil r (y :: ys) (by simp)
        cases hsl : setLast (y :: ys) r with
        | nil => exact absurd hsl hne
        | cons w ws =>
          rw [List.getLast?_cons_cons]
          rw [hsl] at hz2
          exact hz2

theorem planStart_char (drv : Driver) (req : Request) (path : List Nat)
    (startFile : String) (steps0 : List (Nat × String))
    (h : planStart drv req path = some (startFile, steps0)) :
    (∃ f, req.startFile = some f ∧ startFile = relativePath f req.workdir ∧ steps0 = []) ∨
    (req.startFile = none ∧ ∃ op0 rest ext, path = op0 :: rest ∧
      (stateAt drv ((opAt drv op0).input)).extensions.head? = some ext ∧
      startFile = withExtension "stdin" ext ∧ steps0 = [(drv.stdinOp, startFile)]) := by
  rw [planStart] at h
  cases hsf : req.startFile with
  | some f =>
    rw [hsf] at h
    obtain ⟨h1, h2⟩ : relativePath f req.workdir = startFile ∧ ([] : List (Nat × String)) = steps0 := by
      simpa using h
    exact Or.inl ⟨f, rfl, h1.symm, h2.symm⟩
  | none =>
    rw [hsf] at h
    cases hp : path with
    | nil =>
      rw [hp] at h
      exact absurd h (by simp)
    | cons op0 rest =>
      rw [hp] at h
      simp only [List.head?_cons] at h
      cases hgn : genName drv "stdin" ((opAt drv op0).input) with
      | none =>
        rw [hgn] at h
        exact absurd h (by simp)
      | some fn =>
        rw [hgn] at h
        obtain ⟨h1, h2⟩ : fn = startFile ∧ [(drv.stdinOp, fn)] = steps0 := by
          simpa using h
        rw [genName] at hgn
        cases hh : (stateAt drv ((opAt drv op0).input)).extensions.head? with
        | none => rw [hh] at hgn; exact absurd hgn (by simp)
        | some ext =>
          rw [hh] at hgn
          obtain rfl : withExtension "stdin" ext = fn := by simpa using hgn
          exact Or.inr ⟨rfl, op0, rest, ext, rfl, hh, h1.symm, by rw [← h2, h1]⟩

theorem planFinish_char (drv : Driver) (req : Request) (startFile : String)
    (steps1 : List (Nat × String)) (p : Plan)
    (h : planFinish drv req startFile steps1 = Outcome.ok p) :
    p.start = startFile ∧ p.workdir = req.workdir ∧
    ((req.endFile = none ∧ p.steps = steps1 ++ [(drv.stdoutOp, "_stdout")]) ∨
     (∃ ef, req.endFile = some ef ∧ steps1 ≠ [] ∧
        p.steps = setLast steps1 (relativePath ef req.workdir))) := by
  rw [planFinish] at h
  cases hef : req.endFile with
  | some ef =>
    rw [hef] at h
    cases hs : steps1 with
    | nil =>
      rw [hs] at h
      exact absurd h (by simp)
    | cons x xs =>
      rw [hs] at h
      obtain rfl : Plan.mk startFile (setLast (x :: xs) (relativePath ef req.workdir)) req.workdir = p := by
        simpa using h
      exact ⟨rfl, rfl, Or.inr ⟨ef, rfl, by simp [hs], rfl⟩⟩
  | none =>
    rw [hef] at h
    obtain rfl : Plan.mk startFile (steps1 ++ [(drv.stdoutOp, "_stdout")]) req.workdir = p := by
      simpa using h
    exact ⟨rfl, rfl, Or.inl ⟨rfl, rfl⟩⟩

theorem plan_ok_pieces (drv : Driver) (req : Request) (p : Plan)
    (h : plan drv req = Outcome.ok p) :
    ∃ path startFile steps0 stem gsteps,
      findPath drv req.startState req.endState req.through = some path ∧
      planStart drv req path = some (startFile, steps0) ∧
      fileStemPath startFile = some stem ∧
      genSteps drv stem path = some gsteps ∧
      planFinish drv req startFile (steps0 ++ gsteps) = Outcome.ok p := by
  rw [plan] at h
  cases hfp : findPath drv req.startState req.endState req.through with
  | none => rw [hfp] at h; exact absurd h (by simp)
  | some path =>
    rw [hfp] at h
    simp only [] at h
    cases hps : planStart drv req path with
    | none => rw [hps] at h; exact absurd h (by simp)
    | some sp =>
      obtain ⟨startFile, steps0⟩ := sp
      rw [hps] at h
      simp only [] at h
      cases hstem : fileStemPath startFile with
      | none => rw [hstem] at h; exact absurd h (by simp)
      | some stem =>
        rw [hstem] at h
        simp only [] at h
        cases hgs : genSteps drv stem path with
        | none => rw [hgs] at h; exact absurd h (by simp)
        | some gsteps =>
          rw [hgs] at h
          exact ⟨path, startFile, steps0, stem, gsteps, rfl, hps, hstem, hgs, h⟩

/-! ## Claim C4 -/

/-- Claim C4 counterexample: with start file `foo.tar.gz` the stem is
`foo.tar`, but the generated filename for the B step is `foo.b`, not
`foo.tar.b` as `<stem>.<ext>` would give: `with_extension` first strips the
stem's own `.tar` suffix. -/
theorem plan_strips_stem_extension :
    plan gzDriver ⟨0, 1, some "foo.tar.gz", none, [], "."⟩ =
      Outcome.ok ⟨"foo.tar.gz", [(0, "foo.b"), (2, "_stdout")], "."⟩ ∧
    fileStemPath (relativePath "foo.tar.gz" ".") = some "foo.tar" ∧
    "foo.b" ≠ "foo.tar" ++ "." ++ "b" := by
  refine ⟨by decide, by decide, by decide⟩

/-- Claim C4 (amended): for every successful plan, the stem comes from the
relativized start file (or the synthetic `stdin` name, whose filename is
`with_extension "stdin" ext` for the primary extension `ext` of the first
operation's input state, prepended as a `stdin-op` step); each real step's
output filename is `with_extension stem ext` for the primary extension of
its output state - the stem with its own extension stripped, then the new
extension appended - rather than the literal `<stem>.<ext>`; and with no end
file a synthetic `stdout-op` step with sentinel filename `_stdout` is
appended (an end file instead overrides the last generated filename). -/
theorem plan_filename_assignment (drv : Driver) (req : Request) (p : Plan)
    (h : plan drv req = Outcome.ok p) :
    ∃ path stem gsteps tail,
      findPath drv req.startState req.endState req.through = some path ∧
      fileStemPath p.start = some stem ∧
      genSteps drv stem path = some gsteps ∧
      gsteps.length = path.length ∧
      (∀ k op, path.get? k = some op →
        ∃ ext, (stateAt drv ((opAt drv op).output)).extensions.head? = some ext ∧
          gsteps.get? k = some (op, withExtension stem ext)) ∧
      ((req.endFile = none ∧ tail = gsteps ++ [(drv.stdoutOp, "_stdout")] ∧
          p.steps.getLast? = some (drv.stdoutOp, "_stdout")) ∨
       (∃ ef, req.endFile = some ef ∧
          tail = setLast gsteps (relativePath ef req.workdir))) ∧
      ((∃ f, req.startFile = some f ∧ p.start = relativePath f req.workdir ∧
          p.steps = tail) ∨
       (req.startFile = none ∧ ∃ op0 rest ext, path = op0 :: rest ∧
          (stateAt drv ((opAt drv op0).input)).extensions.head? = some ext ∧
          p.start = withExtension "stdin" ext ∧
          p.steps = (drv.stdinOp, p.start) :: tail)) := by
  obtain ⟨path, startFile, steps0, stem, gsteps, hfp, hps, hstem, hgs, hfin⟩ :=
    plan_ok_pieces drv req p h
  obtain ⟨hstart, hwd, hend⟩ := planFinish_char drv req startFile (steps0 ++ gsteps) p hfin
  obtain ⟨hlen, _, hchar⟩ := genSteps_char drv stem path gsteps hgs
  rcases planStart_char drv req path startFile steps0 hps with
    ⟨f, hsf, hrel, hs0⟩ | ⟨hsf, op0, rest, ext0, hpath, hh0, hsfile, hs0⟩
  · -- start file present: steps0 = []
    subst hs0
    rcases hend with ⟨hefn, hsteps⟩ | ⟨ef, hefs, hne1, hsteps⟩
    · refine ⟨path, stem, gsteps, gsteps ++ [(drv.stdoutOp, "_stdout")], hfp,
        by rw [hstart]; exact hstem, hgs, hlen, hchar, Or.inl ⟨hefn, rfl, ?_⟩,
        Or.inl ⟨f, hsf, by rw [hstart, hrel], ?_⟩⟩
      · rw [hsteps]
        simp only [List.nil_append]
        exact List.getLast?_concat _
      · rw [hsteps]
        simp
    · refine ⟨path, stem, gsteps, setLast gsteps (relativePath ef req.workdir), hfp,
        by rw [hstart]; exact hstem, hgs, hlen, hchar, Or.inr ⟨ef, hefs, rfl⟩,
        Or.inl ⟨f, hsf, by rw [hstart, hrel], ?_⟩⟩
      rw [hsteps]
      simp
  · -- reading stdin: steps0 is the synthetic stdin step
    subst hs0
    have hgne : gsteps ≠ [] := by
      intro hc
      rw [hc] at hlen
      rw [hpath] at hlen
      simp at hlen
    rcases hend with ⟨hefn, hsteps⟩ | ⟨ef, hefs, hne1, hsteps⟩
    · refine ⟨path, stem, gsteps, gsteps ++ [(drv.stdoutOp, "_stdout")], hfp,
        by rw [hstart]; exact hstem, hgs, hlen, hchar, Or.inl ⟨hefn, rfl, ?_⟩,
        Or.inr ⟨hsf, op0, rest, ext0, hpath, hh0, by rw [hstart, hsfile], ?_⟩⟩
      · rw [hsteps]
        exact List.getLast?_concat _
      · rw [hsteps, hstart]
        simp
    · refine ⟨path, stem, gsteps, setLast gsteps (relativePath ef req.workdir), hfp,
        by rw [hstart]; exact hstem, hgs, hlen, hchar, Or.inr ⟨ef, hefs, rfl⟩,
        Or.inr ⟨hsf, op0, rest, ext0, hpath, hh0, by rw [hstart, hsfile], ?_⟩⟩
      rw [hsteps, hstart]
      rw [show ((drv.stdinOp, startFile) :: []) ++ gsteps = (drv.stdinOp, startFile) :: gsteps
        from rfl]
      exact setLast_cons_of_ne _ _ gsteps hgne

/-- Witness for the amended C4 on `abDriver` converting `f.a` to B. -/
theorem plan_filename_assignment_witness :
    ∃ path stem gsteps tail,
      findPath abDriver 0 1 [] = some path ∧
      fileStemPath (Plan.start ⟨"f.a", [(0, "f.b"), (2, "_stdout")], "."⟩) = some stem ∧
      genSteps abDriver stem path = some gsteps ∧
      gsteps.length = path.length ∧
      (∀ k op, path.get? k = some op →
        ∃ ext, (stateAt abDriver ((opAt abDriver op).output)).extensions.head? = some ext ∧
          gsteps.get? k = some (op, withExtension stem ext)) ∧
      (((⟨0, 1, some "f.a", none, [], "."⟩ : Request).endFile = none ∧
          tail = gsteps ++ [(abDriver.stdoutOp, "_stdout")] ∧
          (Plan.steps ⟨"f.a", [(0, "f.b"), (2, "_stdout")], "."⟩).getLast? =
            some (abDriver.stdoutOp, "_stdout")) ∨
       (∃ ef, (⟨0, 1, some "f.a", none, [], "."⟩ : Request).endFile = some ef ∧
          tail = setLast gsteps (relativePath ef "."))) ∧
      ((∃ f, (⟨0, 1, some "f.a", none, [], "."⟩ : Request).startFile = some f ∧
          Plan.start ⟨"f.a", [(0, "f.b"), (2, "_stdout")], "."⟩ = relativePath f "." ∧
          Plan.steps ⟨"f.a", [(0, "f.b"), (2, "_stdout")], "."⟩ = tail) ∨
       ((⟨0, 1, some "f.a", none, [], "."⟩ : Request).startFile = none ∧
          ∃ op0 rest ext, path = op0 :: rest ∧
          (stateAt abDriver ((opAt abDriver op0).input)).extensions.head? = some ext ∧
          Plan.start ⟨"f.a", [(0, "f.b"), (2, "_stdout")], "."⟩ = withExtension "stdin" ext ∧
          Plan.steps ⟨"f.a", [(0, "f.b"), (2, "_stdout")], "."⟩ =
            (abDriver.stdinOp, Plan.start ⟨"f.a", [(0, "f.b"), (2, "_stdout")], "."⟩) :: tail)) :=
  plan_filename_assignment abDriver ⟨0, 1, some "f.a", none, [], "."⟩
    ⟨"f.a", [(0, "f.b"), (2, "_stdout")], "."⟩ (by decide)

/-! ## Claim C7 -/

/-- Claim C7: specifying an end file changes only the last real step of the
plan: compared with the same request writing to stdout, the start filename
is unchanged, every intermediate step (operation and generated filename) is
unchanged, and the last real step keeps its operation with its filename
replaced by the relativized end file (the stdout pseudo-step disappears). -/
theorem plan_end_file_override (drv : Driver) (req : Request) (e : String)
    (p q : Plan) (path : List Nat)
    (hn : req.endFile = none)
    (hfp : findPath drv req.startState req.endState req.through = some path)
    (hne : path ≠ [])
    (h1 : plan drv req = Outcome.ok p)
    (h2 : plan drv { req with endFile := some e } = Outcome.ok q) :
    q.start = p.start ∧
    q.steps.length + 1 = p.steps.length ∧
    q.steps.dropLast = p.steps.dropLast.dropLast ∧
    p.steps.getLast? = some (drv.stdoutOp, "_stdout") ∧
    ∃ lastOp gname, p.steps.dropLast.getLast? = some (lastOp, gname) ∧
      q.steps.getLast? = some (lastOp, relativePath e req.workdir) := by
  obtain ⟨path1, sf1, s01, stem1, gs1, hfp1, hps1, hstem1, hgs1, hfin1⟩ :=
    plan_ok_pieces drv req p h1
  obtain rfl : path = path1 := by
    rw [hfp] at hfp1
    injection hfp1
  obtain ⟨hp_start, _, hp_end⟩ := planFinish_char drv req sf1 (s01 ++ gs1) p hfin1
  rcases hp_end with ⟨_, hp_steps⟩ | ⟨ef, hef, _, _⟩
  swap
  · rw [hn] at hef
    exact absurd hef (by simp)
  obtain ⟨path2, sf2, s02, stem2, gs2, hfp2, hps2, hstem2, hgs2, hfin2⟩ :=
    plan_ok_pieces drv { req with endFile := some e } q h2
  have hfp2' : findPath drv req.startState req.endState req.through = some path2 := hfp2
  obtain rfl : path = path2 := by
    rw [hfp] at hfp2'
    injection hfp2'
  have hps2' : planStart drv req path = some (sf2, s02) := hps2
  obtain ⟨rfl, rfl⟩ : sf1 = sf2 ∧ s01 = s02 := by
    rw [hps1] at hps2'
    simpa using hps2'
  obtain rfl : stem1 = stem2 := by
    rw [hstem1] at hstem2
    injection hstem2
  obtain rfl : gs1 = gs2 := by
    rw [hgs1] at hgs2
    injection hgs2
  obtain ⟨hq_start, _, hq_end⟩ :=
    planFinish_char drv { req with endFile := some e } sf1 (s01 ++ gs1) q hfin2
  rcases hq_end with ⟨hc, _⟩ | ⟨ef, hef, hne1, hq_steps⟩
  · exact absurd (show some e = none from hc) (by simp)
  obtain rfl : e = ef := by
    have : some e = some ef := hef
    injection this
  have hwd : ({ req with endFile := some e } : Request).workdir = req.workdir := rfl
  rw [hwd] at hq_steps
  obtain ⟨hglen, _, _⟩ := genSteps_char drv stem1 path gs1 hgs1
  have hgs_ne : gs1 ≠ [] := by
    intro hc
    rw [hc] at hglen
    exact hne (List.eq_nil_of_length_eq_zero hglen.symm)
  have hs1_ne : s01 ++ gs1 ≠ [] := by
    intro hc
    exact hgs_ne (List.append_eq_nil.mp hc).2
  refine ⟨?_, ?_, ?_, ?_, ?_⟩
  · rw [hq_start, hp_start]
  · rw [hq_steps, hp_steps, setLast_length, List.length_append]
    simp only [List.length_append, List.length_cons, List.length_nil]
  · rw [hq_steps, hp_steps, setLast_dropLast, List.dropLast_concat]
  · rw [hp_steps]
    exact List.getLast?_concat _
  · obtain ⟨x, hx1, hx2⟩ := setLast_getLast? (relativePath e req.workdir) (s01 ++ gs1) hs1_ne
    refine ⟨x.1, x.2, ?_, ?_⟩
    · rw [hp_steps, List.dropLast_concat, hx1]
    · rw [hq_steps, hx2]

/-- Witness for C7: converting `f.a` with and without the end file `o.b`. -/
theorem plan_end_file_override_witness :
    (Plan.start ⟨"f.a", [(0, "o.b")], "."⟩ : String) =
      Plan.start ⟨"f.a", [(0, "f.b"), (2, "_stdout")], "."⟩ ∧
    (Plan.steps ⟨"f.a", [(0, "o.b")], "."⟩).length + 1 =
      (Plan.steps ⟨"f.a", [(0, "f.b"), (2, "_stdout")], "."⟩).length ∧
    (Plan.steps ⟨"f.a", [(0, "o.b")], "."⟩).dropLast =
      (Plan.steps ⟨"f.a", [(0, "f.b"), (2, "_stdout")], "."⟩).dropLast.dropLast ∧
    (Plan.steps ⟨"f.a", [(0, "f.b"), (2, "_stdout")], "."⟩).getLast? =
      some (abDriver.stdoutOp, "_stdout") ∧
    ∃ lastOp gname,
      (Plan.steps ⟨"f.a", [(0, "f.b"), (2, "_stdout")], "."⟩).dropLast.getLast? =
        some (lastOp, gname) ∧
      (Plan.steps ⟨"f.a", [(0, "o.b")], "."⟩).getLast? =
        some (lastOp, relativePath "o.b" ".") :=
  plan_end_file_override abDriver ⟨0, 1, some "f.a", none, [], "."⟩ "o.b"
    ⟨"f.a", [(0, "f.b"), (2, "_stdout")], "."⟩ ⟨"f.a", [(0, "o.b")], "."⟩ [0]
    rfl (by decide) (by decide) (by decide) (by decide)

/-! ## String facts for filename distinctness -/

theorem splitOnChar_no_sep (sep : Char) :
    ∀ l : List Char, sep ∉ l → splitOnChar sep l = [l] := by
  intro l
  induction l with
  | nil => intro _; rfl
  | cons c rest ih =>
    intro h
    have hc : ¬ c = sep := fun he => h (he ▸ List.mem_cons_self _ _)
    have hrest : sep ∉ rest := fun hm => h (List.mem_cons_of_mem _ hm)
    rw [splitOnChar, if_neg hc, ih hrest]

theorem lastDotSplit_none_of_no_dot :
    ∀ l : List Char, '.' ∉ l → lastDotSplit l = none := by
  intro l
  induction l with
  | nil => intro _; rfl
  | cons c rest ih =>
    intro h
    have hc : ¬ c = '.' := fun he => h (he ▸ List.mem_cons_self _ _)
    have hrest : '.' ∉ rest := fun hm => h (List.mem_cons_of_mem _ hm)
    rw [lastDotSplit, ih hrest, if_neg hc]

theorem lastDotSplit_append_dot (e : List Char) (he : '.' ∉ e) :
    ∀ s : List Char, lastDotSplit (s ++ '.' :: e) = some (s, e) := by
  intro s
  induction s with
  | nil =>
    rw [List.nil_append, lastDotSplit, lastDotSplit_none_of_no_dot e he, if_pos rfl]
  | cons c s2 ih =>
    rw [List.cons_append, lastDotSplit, ih]

theorem startsWithSlash_mk_false (l : List Char) (h : '/' ∉ l) :
    startsWithSlash (String.mk l) = false := by
  cases l with
  | nil => rfl
  | cons c rest =>
    have hc : c ≠ '/' := fun he => h (he ▸ List.mem_cons_self _ _)
    simp [startsWithSlash, hc]

theorem parseComponents_single (l : List Char) (hnz : l ≠ []) (hs : '/' ∉ l)
    (hdot : String.mk l ≠ ".") (hdd : String.mk l ≠ "..") :
    parseComponents (String.mk l) = [Component.normal (String.mk l)] := by
  have hchunks : pathChunks (String.mk l) = [String.mk l] := by
    rw [pathChunks]
    rw [show (String.mk l).data = l from rfl]
    rw [splitOnChar_no_sep '/' l hs]
    have hne : String.mk l ≠ "" := by
      intro he
      exact hnz (congrArg String.data he)
    simp [hne]
  rw [parseComponents]
  rw [startsWithSlash_mk_false l hs]
  rw [hchunks]
  simp [chunkToComp, hdot, hdd]

theorem fileName_good (s : String) (hnz : s.data ≠ []) (hs : '/' ∉ s.data)
    (hdot : s ≠ ".") (hdd : s ≠ "..") : fileName s = some s := by
  rw [fileName]
  rw [show s = String.mk s.data from rfl]
  rw [parseComponents_single s.data hnz hs hdot hdd]
  rfl

theorem fileStemOfName_no_dot (s : String) (hdot : '.' ∉ s.data) :
    fileStemOfName s = some s := by
  have hdd : s ≠ ".." := by
    intro he
    have hl : s.data = ['.', '.'] := congrArg String.data he
    exact hdot (hl ▸ List.mem_cons_self _ _)
  rw [fileStemOfName, rsplitFileAtDot, if_neg hdd, lastDotSplit_none_of_no_dot s.data hdot]
  rfl

theorem dotfree_ne_dot (s : String) (hdot : '.' ∉ s.data) : s ≠ "." := by
  intro he
  have hl : s.data = ['.'] := congrArg String.data he
  exact hdot (hl ▸ List.mem_cons_self _ _)

theorem dotfree_ne_ddot (s : String) (hdot : '.' ∉ s.data) : s ≠ ".." := by
  intro he
  have hl : s.data = ['.', '.'] := congrArg String.data he
  exact hdot (hl ▸ List.mem_cons_self _ _)

theorem withExtension_eq_concat (s e : String) (hnz : s.data ≠ [])
    (hslash : '/' ∉ s.data) (hdot : '.' ∉ s.data) (he : e ≠ "") :
    withExtension s e = s ++ "." ++ e := by
  rw [withExtension]
  rw [fileName_good s hnz hslash (dotfree_ne_dot s hdot) (dotfree_ne_ddot s hdot)]
  show (match fileStemOfName s with
    | none => s
    | some base => if e = "" then base else base ++ "." ++ e) = s ++ "." ++ e
  rw [fileStemOfName_no_dot s hdot]
  show (if e = "" then s else s ++ "." ++ e) = s ++ "." ++ e
  rw [if_neg he]

theorem concat_data (s e : String) :
    (s ++ "." ++ e).data = s.data ++ '.' :: e.data := by
  rw [String.data_append, String.data_append]
  simp

theorem concat_ne_empty_head (s e : String) (hnz : s.data ≠ []) :
    (s ++ "." ++ e).data ≠ [] := by
  rw [concat_data]
  intro hc
  exact hnz (List.append_eq_nil.mp hc).1

theorem fileStemPath_concat (s e : String) (hnz : s.data ≠ [])
    (hsl : '/' ∉ s.data) (hdot : '.' ∉ s.data)
    (hesl : '/' ∉ e.data) (hedot : '.' ∉ e.data) :
    fileStemPath (s ++ "." ++ e) = some s := by
  have hdata : (s ++ "." ++ e).data = s.data ++ '.' :: e.data := concat_data s e
  have hslash : '/' ∉ (s ++ "." ++ e).data := by
    rw [hdata]
    intro hm
    rcases List.mem_append.mp hm with hm | hm
    · exact hsl hm
    · rcases List.mem_cons.mp hm with hm | hm
      · exact absurd hm (by decide)
      · exact hesl hm
  have hne_dot : (s ++ "." ++ e) ≠ "." := by
    intro hc
    have hl := congrArg String.data hc
    rw [hdata] at hl
    cases hd : s.data with
    | nil => exact hnz hd
    | cons c rest =>
      rw [hd] at hl
      have : c = '.' := by
        have := congrArg (fun l => List.head? l) hl
        simpa using this
      exact hdot (hd ▸ (this ▸ List.mem_cons_self c rest))
  have hne_ddot : (s ++ "." ++ e) ≠ ".." := by
    intro hc
    have hl := congrArg String.data hc
    rw [hdata] at hl
    cases hd : s.data with
    | nil => exact hnz hd
    | cons c rest =>
      rw [hd] at hl
      have : c = '.' := by
        have := congrArg (fun l => List.head? l) hl
        simpa using this
      exact hdot (hd ▸ (this ▸ List.mem_cons_self c rest))
  rw [fileStemPath]
  rw [fileName_good (s ++ "." ++ e) (by rw [hdata]; simp [hnz]) hslash hne_dot hne_ddot]
  rw [show (some (s ++ "." ++ e)).bind fileStemOfName = fileStemOfName (s ++ "." ++ e) from rfl]
  rw [fileStemOfName, rsplitFileAtDot, if_neg hne_ddot]
  rw [show (s ++ "." ++ e).data = s.data ++ '.' :: e.data from hdata]
  rw [lastDotSplit_append_dot e.data hedot s.data]
  simp [hnz]

theorem string_append_cancel (s t u : String) (h : s ++ "." ++ t = s ++ "." ++ u) :
    t = u := by
  have hd := congrArg String.data h
  rw [concat_data, concat_data] at hd
  have := List.append_cancel_left hd
  have ht : t.data = u.data := by
    injection this
  cases t
  cases u
  exact congrArg String.mk ht

theorem concatName_injective (s : String) :
    Function.Injective (fun e => s ++ "." ++ e) := by
  intro t u h
  exact string_append_cancel s t u h

theorem stdout_not_concatName (s : String) (exts : List String) :
    "_stdout" ∉ exts.map (fun e => s ++ "." ++ e) := by
  intro hmem
  obtain ⟨e, _, he⟩ := List.mem_map.mp hmem
  have hd := congrArg String.data he
  rw [concat_data] at hd
  have hin : '.' ∈ "_stdout".data := by
    rw [← hd]
    exact List.mem_append.mpr (Or.inr (List.mem_cons_self _ _))
  exact absurd hin (by decide)

theorem nodup_dropLast_append_single (l : List String) (r : String)
    (h : l.Nodup) (hr : r ∉ l.dropLast) : (l.dropLast ++ [r]).Nodup := by
  rw [List.nodup_append]
  refine ⟨(List.dropLast_sublist l).nodup h, List.nodup_singleton r, ?_⟩
  intro x hx hxr
  rw [List.mem_singleton.mp hxr] at hx
  exact hr hx

theorem setLast_map_snd (r : String) :
    ∀ l : List (Nat × String), l ≠ [] →
      (setLast l r).map Prod.snd = (l.map Prod.snd).dropLast ++ [r] := by
  intro l
  induction l with
  | nil => intro h; exact absurd rfl h
  | cons x xs ih =>
    intro _
    cases xs with
    | nil => rfl
    | cons y ys =>
      rw [setLast_cons_of_ne r x (y :: ys) (by simp)]
      rw [List.map_cons, ih (by simp)]
      rw [show List.map Prod.snd (x :: y :: ys) = x.2 :: List.map Prod.snd (y :: ys) from rfl]
      rw [List.dropLast_cons_of_ne_nil (show List.map Prod.snd (y :: ys) ≠ [] by simp)]
      simp

/-! ## Claim C9 -/

/-- Claim C9 counterexample: converting `f.a` from A to C in `dupExtDriver`
produces two steps both named `f.x`: states B and C share the primary
extension `x`, so the generated filenames collide (the `gen_name` TODO in
the source acknowledges the possibility). -/
theorem plan_filename_collision :
    ∃ p, plan dupExtDriver ⟨0, 2, some "f.a", none, [], "."⟩ = Outcome.ok p ∧
      ¬ (p.steps.map Prod.snd).Nodup :=
  ⟨⟨"f.a", [(0, "f.x"), (1, "f.x"), (3, "_stdout")], "."⟩, by decide, by decide⟩

/-- Claim C9 (amended): the output filenames of a successful plan are
pairwise distinct provided the primary extensions the plan draws on (the
stdin input extension when reading stdin, and the output extensions along
the path) are pairwise distinct, nonempty, and free of dots and separators,
the stem is a nonempty dot- and separator-free name, and any user-specified
end filename differs from the generated intermediate names.  (Two steps
whose output states share a primary extension collide, as the
counterexample shows, so the claim's unconditional form fails.) -/
theorem plan_filenames_distinct (drv : Driver) (req : Request) (p : Plan)
    (path : List Nat) (stem : String)
    (h : plan drv req = Outcome.ok p)
    (hfp : findPath drv req.startState req.endState req.through = some path)
    (hstem : fileStemPath p.start = some stem)
    (hstem_nz : stem.data ≠ []) (hstem_dot : '.' ∉ stem.data)
    (hstem_slash : '/' ∉ stem.data)
    (hexts : (planExtList drv req path).Nodup)
    (hgood : ∀ x ∈ planExtList drv req path, x ≠ "" ∧ '.' ∉ x.data ∧ '/' ∉ x.data)
    (hend : ∀ ef, req.endFile = some ef →
      relativePath ef req.workdir ∉ (p.steps.map Prod.snd).dropLast) :
    (p.steps.map Prod.snd).Nodup := by
  obtain ⟨path1, startFile, steps0, stem1, gsteps, hfp1, hps, hstem1, hgs, hfin⟩ :=
    plan_ok_pieces drv req p h
  obtain rfl : path = path1 := by
    rw [hfp] at hfp1
    injection hfp1
  obtain ⟨hstart, hwd, hendc⟩ := planFinish_char drv req startFile (steps0 ++ gsteps) p hfin
  obtain rfl : stem = stem1 := by
    rw [hstart] at hstem
    rw [hstem1] at hstem
    injection hstem with hh
    exact hh.symm
  obtain ⟨hglen, hnames, _⟩ := genSteps_char drv stem path gsteps hgs
  rcases planStart_char drv req path startFile steps0 hps with
    ⟨f, hsf, hrel, rfl⟩ | ⟨hsf, op0, rest, ext0, hpath, hh0, hsfile, rfl⟩
  · -- start file present
    have hPE : planExtList drv req path = extsOf drv path := by
      cases path <;> simp [planExtList, hsf]
    have hnames2 : gsteps.map Prod.snd =
        (extsOf drv path).map (fun e => stem ++ "." ++ e) := by
      rw [hnames]
      apply List.map_congr_left
      intro e hePE
      have hge := hgood e (by rw [hPE]; exact hePE)
      exact withExtension_eq_concat stem e hstem_nz hstem_slash hstem_dot hge.1
    have hnodup1 : (gsteps.map Prod.snd).Nodup := by
      rw [hnames2]
      exact List.Nodup.map (concatName_injective stem) (hPE ▸ hexts)
    rcases hendc with ⟨hefn, hsteps⟩ | ⟨ef, hefs, hne1, hsteps⟩
    · rw [hsteps]
      simp only [List.nil_append, List.map_append]
      rw [List.nodup_append]
      refine ⟨hnodup1, List.nodup_singleton _, ?_⟩
      intro x hx hxs
      rw [show (List.map Prod.snd [(drv.stdoutOp, "_stdout")]) = ["_stdout"] from rfl] at hxs
      rw [List.mem_singleton.mp hxs] at hx
      rw [hnames2] at hx
      exact stdout_not_concatName stem _ hx
    · have hg_ne : gsteps ≠ [] := by
        intro hc
        rw [hc] at hne1
        exact hne1 rfl
      rw [hsteps]
      rw [show ([] : List (Nat × String)) ++ gsteps = gsteps from rfl]
      rw [setLast_map_snd _ gsteps hg_ne]
      refine nodup_dropLast_append_single _ _ hnodup1 ?_
      have hh := hend ef hefs
      rw [hsteps] at hh
      rw [show ([] : List (Nat × String)) ++ gsteps = gsteps from rfl] at hh
      rw [setLast_map_snd _ gsteps hg_ne, List.dropLast_concat] at hh
      exact hh
  · -- reading stdin
    subst hpath
    have hPE : planExtList drv req (op0 :: rest) = ext0 :: extsOf drv (op0 :: rest) := by
      simp [planExtList, hsf, hh0]
    have hext0_good := hgood ext0 (by rw [hPE]; exact List.mem_cons_self _ _)
    have hstdin_nz : ("stdin" : String).data ≠ [] := by decide
    have hstdin_dot : '.' ∉ ("stdin" : String).data := by decide
    have hstdin_slash : '/' ∉ ("stdin" : String).data := by decide
    have hsf_eq : startFile = "stdin" ++ "." ++ ext0 := by
      rw [hsfile]
      exact withExtension_eq_concat "stdin" ext0 hstdin_nz hstdin_slash hstdin_dot
        hext0_good.1
    obtain rfl : stem = "stdin" := by
      rw [hsf_eq] at hstem1
      rw [fileStemPath_concat "stdin" ext0 hstdin_nz hstdin_slash hstdin_dot
        hext0_good.2.2 hext0_good.2.1] at hstem1
      injection hstem1 with hh
      exact hh.symm
    have hnames2 : gsteps.map Prod.snd =
        (extsOf drv (op0 :: rest)).map (fun e => "stdin" ++ "." ++ e) := by
      rw [hnames]
      apply List.map_congr_left
      intro e hePE
      have hge := hgood e (by rw [hPE]; exact List.mem_cons_of_mem _ hePE)
      exact withExtension_eq_concat "stdin" e hstdin_nz hstdin_slash hstdin_dot hge.1
    have hfull : ((drv.stdinOp, startFile) :: gsteps).map Prod.snd =
        (ext0 :: extsOf drv (op0 :: rest)).map (fun e => "stdin" ++ "." ++ e) := by
      rw [List.map_cons, hnames2, List.map_cons, hsf_eq]
    have hnodup1 : (((drv.stdinOp, startFile) :: gsteps).map Prod.snd).Nodup := by
      rw [hfull]
      exact List.Nodup.map (concatName_injective "stdin") (hPE ▸ hexts)
    rcases hendc with ⟨hefn, hsteps⟩ | ⟨ef, hefs, hne1, hsteps⟩
    · rw [hsteps]
      rw [show ([(drv.stdinOp, startFile)] ++ gsteps) = (drv.stdinOp, startFile) :: gsteps
        from rfl]
      rw [List.map_append]
      rw [List.nodup_append]
      refine ⟨hnodup1, List.nodup_singleton _, ?_⟩
      intro x hx hxs
      rw [show (List.map Prod.snd [(drv.stdoutOp, "_stdout")]) = ["_stdout"] from rfl] at hxs
      rw [List.mem_singleton.mp hxs] at hx
      rw [hfull] at hx
      exact stdout_not_concatName "stdin" _ hx
    · rw [hsteps]
      rw [show ([(drv.stdinOp, startFile)] ++ gsteps) = (drv.stdinOp, startFile) :: gsteps
        from rfl]
      have hcons_ne : (drv.stdinOp, startFile) :: gsteps ≠ [] := by simp
      rw [setLast_map_snd _ _ hcons_ne]
      refine nodup_dropLast_append_single _ _ hnodup1 ?_
      have hh := hend ef hefs
      rw [hsteps] at hh
      rw [show ([(drv.stdinOp, startFile)] ++ gsteps) = (drv.stdinOp, startFile) :: gsteps
        from rfl] at hh
      rw [setLast_map_snd _ _ hcons_ne, List.dropLast_concat] at hh
      exact hh

/-- Witness for the amended C9 on `abDriver` converting `f.a` to B. -/
theorem plan_filenames_distinct_witness :
    ((Plan.steps ⟨"f.a", [(0, "f.b"), (2, "_stdout")], "."⟩).map Prod.snd).Nodup :=
  plan_filenames_distinct abDriver ⟨0, 1, some "f.a", none, [], "."⟩
    ⟨"f.a", [(0, "f.b"), (2, "_stdout")], "."⟩ [0] "f"
    (by decide) (by decide) (by decide) (by decide) (by decide) (by decide)
    (by decide) (by decide)
    (by intro ef hef; exact absurd hef (by simp))

end Fake
